import Mathlib

/-!
# Scoring lambda (`lambda/scoring/main.go`): a shallow embedding

The Go package scores a spoken answer against a reference text.  This file
embeds the scoring engine (`normalizeText`, `levenshteinDistance`, `min`,
`calculateScore`) and the polling loop of `transcribeAudio`, and proves the
properties of them that the specification states.

Conventions of the embedding:

* a Go `string` is its sequence of bytes (`len` counts bytes, `s[i]` is a
  byte); a byte is a natural number below 256, and what is proved for all
  lists of natural numbers holds for all strings;
* a Go `int` is a natural number where the code only counts upwards from
  zero and stays far below `2^63`;
* a finite `float64` is the rational number it stands for, and every
  `float64` operation rounds its exact result to binary64 (`f64round`);
* loops over an index are folds over the list of the index values, loops
  of the library that read a string rune by rune take the length of the
  string as fuel;
* the case table of package `unicode` is a parameter of `normalizeText` and
  `calculateScore`;
* the Transcribe service is the environment of `transcribeAudio`: its
  answers are given, the calls made are logged.
-/

namespace Scoring

/-! ## Data model -/

/-- A Go string: the sequence of its bytes, each a number below 256. -/
abbrev GoString := List Nat

/-- The table `dp` of `levenshteinDistance`: a slice of rows, `[][]int`. -/
abbrev Table := List (List Nat)

/-- The read `dp[i][j]`. -/
def Table.get (dp : Table) (i j : Nat) : Nat :=
  (dp.getD i []).getD j 0

/-- The write `dp[i][j] = v`. -/
def Table.set (dp : Table) (i j v : Nat) : Table :=
  List.set dp i ((dp.getD i []).set j v)

/-! ## `min` and `levenshteinDistance` -/

/-- The three-argument `min` of `main.go`. -/
def min (a b c : Nat) : Nat :=
  if a < b then
    if a < c then a else c
  else
    if b < c then b else c

/-- The allocation `dp := make([][]int, len1+1)` with every row
`make([]int, len2+1)`: all cells zero. -/
def makeTable (len1 len2 : Nat) : Table :=
  List.replicate (len1 + 1) (List.replicate (len2 + 1) 0)

/-- The loop `for i := 0; i <= len1; i++ { dp[i][0] = i }`. -/
def initColumn (len1 : Nat) (dp : Table) : Table :=
  (List.range (len1 + 1)).foldl (fun dp i => dp.set i 0 i) dp

/-- The loop `for j := 0; j <= len2; j++ { dp[0][j] = j }`. -/
def initRow (len2 : Nat) (dp : Table) : Table :=
  (List.range (len2 + 1)).foldl (fun dp j => dp.set 0 j j) dp

/-- The body of the inner loop of the computation: one cell `dp[i][j]`. -/
def fillCell (s1 s2 : GoString) (i j : Nat) (dp : Table) : Table :=
  let cost := if s1.getD (i - 1) 0 ≠ s2.getD (j - 1) 0 then 1 else 0
  dp.set i j
    (min (dp.get (i - 1) j + 1) (dp.get i (j - 1) + 1) (dp.get (i - 1) (j - 1) + cost))

/-- The inner loop `for j := 1; j <= len2; j++ { ... }` for a fixed `i`. -/
def fillRow (s1 s2 : GoString) (i : Nat) (dp : Table) : Table :=
  (List.range' 1 s2.length).foldl (fun dp j => fillCell s1 s2 i j dp) dp

/-- The outer loop `for i := 1; i <= len1; i++ { ... }`. -/
def fillTable (s1 s2 : GoString) (dp : Table) : Table :=
  (List.range' 1 s1.length).foldl (fun dp i => fillRow s1 s2 i dp) dp

/-- The function `levenshteinDistance` of `main.go`. -/
def levenshteinDistance (s1 s2 : GoString) : Nat :=
  let len1 := s1.length
  let len2 := s2.length
  let dp := makeTable len1 len2
  let dp := initColumn len1 dp
  let dp := initRow len2 dp
  let dp := fillTable s1 s2 dp
  dp.get len1 len2

/-! ## Edit scripts: the reference notion of edit distance -/

/-- One single-character edit of a string: an insertion, a deletion or a
substitution of one character by a different one, anywhere in the string. -/
inductive Edit {α : Type} : List α → List α → Prop
  | insert (l : List α) (c : α) (r : List α) : Edit (l ++ r) (l ++ c :: r)
  | delete (l : List α) (c : α) (r : List α) : Edit (l ++ c :: r) (l ++ r)
  | substitute (l : List α) (c d : α) (r : List α) (h : c ≠ d) :
      Edit (l ++ c :: r) (l ++ d :: r)

/-- The relation `EditPath a b n`: `n` single-character edits, applied one after the other,
transform `a` into `b`. -/
inductive EditPath {α : Type} : List α → List α → Nat → Prop
  | done (a : List α) : EditPath a a 0
  | step {a b c : List α} {n : Nat} : Edit a b → EditPath b c n → EditPath a c (n + 1)

/-- The recurrence of the edit distance, on the heads of the two lists. -/
def lev {α : Type} [DecidableEq α] : List α → List α → Nat
  | [], ys => ys.length
  | x :: xs, [] => xs.length + 1
  | x :: xs, y :: ys =>
    Min.min (Min.min (lev xs (y :: ys) + 1) (lev (x :: xs) ys + 1))
      (lev xs ys + if x ≠ y then 1 else 0)
termination_by xs ys => xs.length + ys.length


/-! ## UTF-8 and the library calls of `normalizeText`

`normalizeText` is three library calls: `strings.ToLower`, `strings.TrimSpace`
and `regexp.MustCompile("\\s+").ReplaceAllString(text, " ")`.  They are
modelled on the bytes of the string, by what the Go library does on every
byte sequence, valid UTF-8 or not.  The case table of package `unicode`
(`unicode.ToLower`) is a parameter, `unicodeToLower`. -/

/-- The rune `utf8.RuneError`, U+FFFD. -/
def runeError : Nat := 0xFFFD

/-- A Unicode scalar value: a code point up to U+10FFFF that is no surrogate. -/
def ValidRune (r : Nat) : Prop :=
  r < 0xD800 ∨ (0xE000 ≤ r ∧ r ≤ 0x10FFFF)

instance (r : Nat) : Decidable (ValidRune r) := by
  unfold ValidRune; infer_instance

/-- The bytes `utf8.AppendRune` writes for a rune: one to four bytes, and the
three bytes of U+FFFD for a surrogate or a value above U+10FFFF. -/
def encodeRune (r : Nat) : GoString :=
  if r < 0x80 then [r]
  else if r < 0x800 then [0xC0 + r / 64, 0x80 + r % 64]
  else if 0xD800 ≤ r ∧ r ≤ 0xDFFF ∨ 0x10FFFF < r then [0xEF, 0xBF, 0xBD]
  else if r < 0x10000 then [0xE0 + r / 4096, 0x80 + r / 64 % 64, 0x80 + r % 64]
  else [0xF0 + r / 262144, 0x80 + r / 4096 % 64, 0x80 + r / 64 % 64, 0x80 + r % 64]

/-- The string a sequence of runes is written as. -/
def encodeRunes (rs : List Nat) : GoString :=
  rs.flatMap encodeRune

/-- A continuation byte, `10xxxxxx`. -/
def isCont (b : Nat) : Bool :=
  decide (0x80 ≤ b ∧ b ≤ 0xBF)

/-- The rest of `utf8.DecodeRuneInString` for a first byte `0xC2`..`0xDF`: a
rune of two bytes. -/
def decodeRune2 (b0 : Nat) : GoString → Nat × Nat
  | b1 :: _ =>
    if isCont b1 then ((b0 - 0xC0) * 64 + (b1 - 0x80), 2) else (runeError, 1)
  | _ => (runeError, 1)

/-- The rest of `utf8.DecodeRuneInString` for a first byte `0xE0`..`0xEF`: a
rune of three bytes; after `0xE0` the second byte is at least `0xA0` (no
overlong form), after `0xED` at most `0x9F` (no surrogate). -/
def decodeRune3 (b0 : Nat) : GoString → Nat × Nat
  | b1 :: b2 :: _ =>
    if (if b0 = 0xE0 then 0xA0 else 0x80) ≤ b1 ∧ b1 ≤ (if b0 = 0xED then 0x9F else 0xBF)
        ∧ isCont b2 then
      (((b0 - 0xE0) * 64 + (b1 - 0x80)) * 64 + (b2 - 0x80), 3)
    else (runeError, 1)
  | _ => (runeError, 1)

/-- The rest of `utf8.DecodeRuneInString` for a first byte `0xF0`..`0xF4`: a
rune of four bytes; after `0xF0` the second byte is at least `0x90` (no
overlong form), after `0xF4` at most `0x8F` (nothing above U+10FFFF). -/
def decodeRune4 (b0 : Nat) : GoString → Nat × Nat
  | b1 :: b2 :: b3 :: _ =>
    if (if b0 = 0xF0 then 0x90 else 0x80) ≤ b1 ∧ b1 ≤ (if b0 = 0xF4 then 0x8F else 0xBF)
        ∧ isCont b2 ∧ isCont b3 then
      ((((b0 - 0xF0) * 64 + (b1 - 0x80)) * 64 + (b2 - 0x80)) * 64 + (b3 - 0x80), 4)
    else (runeError, 1)
  | _ => (runeError, 1)

/-- The function `utf8.DecodeRuneInString`: the first rune of the string and its width in
bytes.  The empty string gives `(RuneError, 0)`; bytes that do not start a
well-formed, shortest-form encoding of a scalar value give `(RuneError, 1)`. -/
def decodeRune : GoString → Nat × Nat
  | [] => (runeError, 0)
  | b0 :: rest =>
    if b0 < 0x80 then (b0, 1)
    else if 0xC2 ≤ b0 ∧ b0 ≤ 0xDF then decodeRune2 b0 rest
    else if 0xE0 ≤ b0 ∧ b0 ≤ 0xEF then decodeRune3 b0 rest
    else if 0xF0 ≤ b0 ∧ b0 ≤ 0xF4 then decodeRune4 b0 rest
    else (runeError, 1)

/-- The runes a `for _, c := range s` loop sees, reading at most `fuel` of
them. -/
def decodeRunesAux : Nat → GoString → List Nat
  | 0, _ => []
  | _ + 1, [] => []
  | fuel + 1, b :: s =>
    (decodeRune (b :: s)).1 :: decodeRunesAux fuel ((b :: s).drop (decodeRune (b :: s)).2)

/-- The runes a `for _, c := range s` loop sees: every rune takes at least one
byte, so `len(s)` steps read the whole string. -/
def decodeRunes (s : GoString) : List Nat :=
  decodeRunesAux s.length s

/-- The function `strings.Map(mapping, s)` for a mapping that returns no negative value: every
rune of `s` (an invalid byte counts as `RuneError`) is mapped and written
back. -/
def stringsMap (mapping : Nat → Nat) (s : GoString) : GoString :=
  encodeRunes ((decodeRunes s).map mapping)

/-- The lowering of an ASCII byte: `c += 'a' - 'A'` for `'A' <= c && c <= 'Z'`. -/
def asciiLower (c : Nat) : Nat :=
  if 0x41 ≤ c ∧ c ≤ 0x5A then c + 0x20 else c

/-- The function `strings.ToLower`: a string of ASCII bytes has its letters `A`..`Z` lowered byte
by byte, any other string is `strings.Map(unicode.ToLower, s)`. -/
def toLower (unicodeToLower : Nat → Nat) (s : GoString) : GoString :=
  if s.all (fun c => decide (c < 0x80)) then
    s.map asciiLower
  else
    stringsMap unicodeToLower s

/-- The runes `unicode.IsSpace` accepts: tab, line feed, vertical tab, form
feed, carriage return, space, U+0085, U+00A0 and the other code points with
the White_Space property. -/
def spaceRunes : List Nat :=
  [0x09, 0x0A, 0x0B, 0x0C, 0x0D, 0x20, 0x85, 0xA0, 0x1680,
   0x2000, 0x2001, 0x2002, 0x2003, 0x2004, 0x2005, 0x2006, 0x2007, 0x2008, 0x2009, 0x200A,
   0x2028, 0x2029, 0x202F, 0x205F, 0x3000]

/-- The function `unicode.IsSpace`. -/
def isSpace (r : Nat) : Bool :=
  decide (r ∈ spaceRunes)

/-- The function `strings.TrimLeftFunc(s, unicode.IsSpace)`, reading at most `fuel` runes: the
runes at the front are dropped while they are white space. -/
def trimLeftSpace : Nat → GoString → GoString
  | 0, s => s
  | fuel + 1, s =>
    if isSpace (decodeRune s).1 then trimLeftSpace fuel (s.drop (decodeRune s).2) else s

/-- The width of the white space rune the string ends with, 0 when it ends
with none: the last rune `utf8.DecodeLastRuneInString` reads is a white space
rune exactly when the string ends with the encoding of one. -/
def lastSpaceWidth (s : GoString) : Nat :=
  match spaceRunes.find? (fun r => (encodeRune r).isSuffixOf s) with
  | some r => (encodeRune r).length
  | none => 0

/-- The function `strings.TrimRightFunc(s, unicode.IsSpace)`, reading at most `fuel` runes: the
runes at the end are dropped while they are white space. -/
def trimRightSpace : Nat → GoString → GoString
  | 0, s => s
  | fuel + 1, s =>
    if lastSpaceWidth s = 0 then s
    else trimRightSpace fuel (s.take (s.length - lastSpaceWidth s))

/-- The function `strings.TrimSpace`: leading and trailing white space, as `unicode.IsSpace`
defines it, is removed. -/
def trimSpace (s : GoString) : GoString :=
  trimRightSpace s.length (trimLeftSpace s.length s)

/-- The class `\s` of Go regular expressions: `[\t\n\f\r ]`. -/
def isRegexSpace (b : Nat) : Bool :=
  decide (b = 0x09 ∨ b = 0x0A ∨ b = 0x0C ∨ b = 0x0D ∨ b = 0x20)

/-- The scan of `ReplaceAllString` for the pattern `\s+` and the replacement
`" "`; `inRun` tells that the byte before was matched by the pattern. -/
def collapseAux : Bool → GoString → GoString
  | _, [] => []
  | inRun, b :: s =>
    if isRegexSpace b then
      if inRun then collapseAux true s else 0x20 :: collapseAux true s
    else b :: collapseAux false s

/-- The call `regexp.MustCompile("\\s+").ReplaceAllString(text, " ")`: every maximal run of
bytes of the class `\s` becomes one space. -/
def collapseSpaces (s : GoString) : GoString :=
  collapseAux false s

/-- The function `normalizeText` of `main.go`. -/
def normalizeText (unicodeToLower : Nat → Nat) (text : GoString) : GoString :=
  let text := toLower unicodeToLower text
  let text := trimSpace text
  let text := collapseSpaces text
  text

/-! ## `float64` arithmetic and `calculateScore`

A finite `float64` is the rational number it stands for.  Every arithmetic
operation of Go on `float64` is the exact operation followed by the rounding
of IEEE 754 binary64, to nearest with ties to even (`f64round`).  A division
by zero has no finite result and is `none`. -/

/-- The quotient `n / d` rounded to the nearest natural number, a tie to the even
one. -/
def roundHalfEven (n d : Nat) : Nat :=
  if 2 * (n % d) < d then n / d
  else if d < 2 * (n % d) then n / d + 1
  else if n / d % 2 = 0 then n / d else n / d + 1

/-- The halving loop of `log2`, run at most `fuel` times. -/
def log2Aux : Nat → Nat → Nat
  | 0, _ => 0
  | fuel + 1, n => if n < 2 then 0 else log2Aux fuel (n / 2) + 1

/-- The position of the highest set bit of `n`: the `k` with `2^k ≤ n < 2^(k+1)`,
for `n` positive. -/
def log2 (n : Nat) : Nat :=
  log2Aux n n

/-- The binary exponent of the positive rational `n / d`: the `e` with
`2^e ≤ n / d < 2^(e+1)`. -/
def binadeExp (n d : Nat) : Int :=
  let e0 : Int := (log2 n : Int) - (log2 d : Int)
  if d * 2 ^ e0.toNat ≤ n * 2 ^ (-e0).toNat then e0 else e0 - 1

/-- The exponent of the unit in the last place of the binary64 numbers around
the positive rational `n / d`: 52 below its binary exponent, and -1074 for
the subnormal numbers. -/
def ulpExp (n d : Nat) : Int :=
  max (binadeExp n d - 52) (-1074)

/-- The binary64 number nearest to the positive rational `n / d`: the nearest
multiple of the unit in the last place, a tie to the even multiple. -/
def roundPos (n d : Nat) : ℚ :=
  let u := ulpExp n d
  let m := roundHalfEven (n * 2 ^ (-u).toNat) (d * 2 ^ u.toNat)
  mkRat (m * 2 ^ u.toNat : Nat) (2 ^ (-u).toNat)

/-- The rounding of a real result to `float64`: to nearest, a tie to even.  (Results of
magnitude `2^1024` and more, which round to infinity, do not arise from the
operations of this file.) -/
def f64round (q : ℚ) : ℚ :=
  if q = 0 then 0
  else if q < 0 then -roundPos q.num.natAbs q.den
  else roundPos q.num.natAbs q.den

/-- The conversion `float64(n)` of an `int`. -/
def f64ofInt (n : Nat) : ℚ :=
  f64round n

/-- The `float64` product `x * y`. -/
def f64mul (x y : ℚ) : ℚ :=
  f64round (x * y)

/-- The `float64` difference `x - y`. -/
def f64sub (x y : ℚ) : ℚ :=
  f64round (x - y)

/-- The `float64` quotient `x / y`; `none` when `y` is zero (the result is then
an infinity or not a number). -/
def f64div (x y : ℚ) : Option ℚ :=
  if y = 0 then none else some (f64round (x / y))

/-- The function `math.Max` on finite numbers. -/
def mathMax (x y : ℚ) : ℚ :=
  if x < y then y else x

/-- The function `math.Round`: the nearest integer, a tie away from zero. -/
def mathRound (x : ℚ) : ℚ :=
  if 0 ≤ x then (⌊x + 1 / 2⌋ : ℚ) else -(⌊-x + 1 / 2⌋ : ℚ)

/-- The function `calculateScore` of `main.go`; `none` stands for a result that is no finite
number. -/
def calculateScore (unicodeToLower : Nat → Nat) (original transcribed : GoString) :
    Option ℚ :=
  let original := normalizeText unicodeToLower original
  let transcribed := normalizeText unicodeToLower transcribed
  let distance := levenshteinDistance original transcribed
  let maxLen := mathMax (f64ofInt original.length) (f64ofInt transcribed.length)
  if maxLen = 0 then some 0
  else
    match f64div (f64ofInt distance) maxLen with
    | none => none
    | some ratio =>
      let similarity := f64mul (f64sub 1 ratio) 100
      let similarity :=
        if similarity < 0 then 0 else if similarity > 100 then 100 else similarity
      f64div (mathRound (f64mul similarity 100)) 100

/-- The score as the specification defines it, in exact rational arithmetic: 0
when both normalized strings are empty, otherwise `(1 - d/maxLen) * 100`
clamped to `[0, 100]` and rounded to two decimal places, a tie away from
zero. -/
def scoreSpec (unicodeToLower : Nat → Nat) (reference transcribed : GoString) : ℚ :=
  let r := normalizeText unicodeToLower reference
  let t := normalizeText unicodeToLower transcribed
  let maxLen := max r.length t.length
  let d := levenshteinDistance r t
  if maxLen = 0 then 0
  else
    let similarity : ℚ := (1 - (d : ℚ) / (maxLen : ℚ)) * 100
    let clamped : ℚ := max 0 (Min.min 100 similarity)
    mathRound (clamped * 100) / 100

/-- The arithmetic of `calculateScore`, from `maxLen` on, for a distance and
the two lengths. -/
def scoreOfCounts (distance len1 len2 : Nat) : Option ℚ :=
  let maxLen := mathMax (f64ofInt len1) (f64ofInt len2)
  if maxLen = 0 then some 0
  else
    match f64div (f64ofInt distance) maxLen with
    | none => none
    | some ratio =>
      let similarity := f64mul (f64sub 1 ratio) 100
      let similarity :=
        if similarity < 0 then 0 else if similarity > 100 then 100 else similarity
      f64div (mathRound (f64mul similarity 100)) 100

/-- The score of the specification with every arithmetic step in `float64`:
0 when both normalized strings are empty, otherwise `(1 - d/maxLen) * 100`
clamped to `[0, 100]` and rounded to two decimal places, a tie away from
zero, where the quotient, the difference, the two products and the last
division by 100 are each rounded to `float64`. -/
def scoreSpecF64 (unicodeToLower : Nat → Nat) (reference transcribed : GoString) : ℚ :=
  let r := normalizeText unicodeToLower reference
  let t := normalizeText unicodeToLower transcribed
  let maxLen := max (f64ofInt r.length) (f64ofInt t.length)
  let d := f64ofInt (levenshteinDistance r t)
  if maxLen = 0 then 0
  else
    let similarity := f64mul (f64sub 1 (f64round (d / maxLen))) 100
    let clamped := max 0 (Min.min 100 similarity)
    f64round (mathRound (f64mul clamped 100) / 100)

/-! ## `transcribeAudio`: the polling loop

The Transcribe service and the HTTP fetch are the environment: what each call
answers is given by a `Service`, and the calls `transcribeAudio` makes are
recorded, in order, in a log of `Event`s. -/

/-- The values of `types.TranscriptionJobStatus`. -/
inductive JobStatus
  | queued
  | inProgress
  | failed
  | completed
  deriving DecidableEq, Repr

/-- What `transcribeAudio` reads of the `TranscriptionJob` a poll returns:
its status, the transcript file URI (`none` when `Transcript` or
`TranscriptFileUri` is nil) and the failure reason (`none` when nil). -/
structure TranscriptionJob where
  status : JobStatus
  transcriptFileUri : Option String
  failureReason : Option String
  deriving DecidableEq, Repr

/-- The result of a call that returns `(value, error)`. -/
inductive Outcome (α : Type)
  | ok (value : α)
  | error (msg : String)
  deriving DecidableEq, Repr

/-- The environment of one run of `transcribeAudio`. -/
structure Service where
  /-- The error of `StartTranscriptionJob`, `none` when it succeeds. -/
  startJob : Option String
  /-- The answer of the `k`-th call of `GetTranscriptionJob`, counted from 0. -/
  getJob : Nat → Outcome TranscriptionJob
  /-- The answer of `fetchTranscriptText` for a URI. -/
  fetchTranscript : String → Outcome GoString

/-- A call `transcribeAudio` makes. -/
inductive Event
  | startJob
  | sleep
  | getJob
  | fetch (uri : String)
  | deleteJob
  deriving DecidableEq, Repr

/-- The constant `maxRetries` of `transcribeAudio`. -/
def maxRetries : Nat := 60

/-- The loop `for range maxRetries { ... }` of `transcribeAudio` and the
`return` after it, with `remaining` iterations left, `polls` calls of
`GetTranscriptionJob` made so far and the log of the calls so far. -/
def pollLoop (svc : Service) : Nat → Nat → List Event → Outcome GoString × List Event
  | 0, _, log => (Outcome.error "transcription job timed out", log)
  | remaining + 1, polls, log =>
    let log := log ++ [Event.sleep]
    let log := log ++ [Event.getJob]
    match svc.getJob polls with
    | Outcome.error err => (Outcome.error ("failed to get transcription job: " ++ err), log)
    | Outcome.ok job =>
      match job.status with
      | JobStatus.completed =>
        match job.transcriptFileUri with
        | some uri =>
          match svc.fetchTranscript uri with
          | Outcome.error err => (Outcome.error err, log ++ [Event.fetch uri])
          | Outcome.ok transcriptText =>
            (Outcome.ok transcriptText, log ++ [Event.fetch uri, Event.deleteJob])
        | none => (Outcome.error "transcript URI is missing", log)
      | JobStatus.failed =>
        (Outcome.error ("transcription job failed: " ++ job.failureReason.getD ""),
          log ++ [Event.deleteJob])
      | _ => pollLoop svc remaining (polls + 1) log

/-- The function `transcribeAudio` of `main.go`: its result and the calls it made. -/
def transcribeAudio (svc : Service) : Outcome GoString × List Event :=
  match svc.startJob with
  | some err => (Outcome.error ("failed to start transcription job: " ++ err), [Event.startJob])
  | none => pollLoop svc maxRetries 0 [Event.startJob]

/-- A status that ends neither the job nor the loop. -/
def JobStatus.nonTerminal (s : JobStatus) : Prop :=
  s = JobStatus.queued ∨ s = JobStatus.inProgress
/-! ## Invariants of the table of `levenshteinDistance` -/

/-- A table of `rows + 1` rows of `cols + 1` cells each. -/
def Table.Shaped (dp : Table) (rows cols : Nat) : Prop :=
  dp.length = rows + 1 ∧ ∀ i, i ≤ rows → (dp.getD i []).length = cols + 1

/-- The recurrence on the prefixes `s1[:i]` and `s2[:j]`, read from their last characters. -/
def prefixLev (s1 s2 : GoString) (i j : Nat) : Nat :=
  lev (s1.take i).reverse (s2.take j).reverse

/-- The loop invariant of the computation: the table has its shape, and the first row, the first
column, the rows before row `i` and the cells of row `i` before column `j` hold
the recurrence on the prefixes. -/
def Filled (s1 s2 : GoString) (dp : Table) (i j : Nat) : Prop :=
  dp.Shaped s1.length s2.length ∧
  ∀ i2 j2, i2 ≤ s1.length → j2 ≤ s2.length →
    (i2 = 0 ∨ j2 = 0 ∨ i2 < i ∨ (i2 = i ∧ j2 < j)) → dp.get i2 j2 = prefixLev s1 s2 i2 j2


/-! ## Auxiliary notions of the proofs -/

/-- The calls of one iteration that ends with a non-terminal status. -/
def waitRound : List Event := [Event.sleep, Event.getJob]

/-- The steps of `normalizeText` after `strings.ToLower`, on the runes of the string. -/
def normalizeRunes (rs : List Nat) : List Nat :=
  collapseAux false ((rs.dropWhile isSpace).rdropWhile isSpace)

/-- The list starts with no white space rune. -/
def HeadOk (l : List Nat) : Prop :=
  ∀ h t, l = h :: t → isSpace h = false

/-- The list ends with no white space rune. -/
def LastOk (l : List Nat) : Prop :=
  ∀ i z, l = i ++ [z] → isSpace z = false


/-! ## Concrete inputs -/

/-- The string `"transcript"`. -/
def sampleTranscript : GoString := [116, 114, 97, 110, 115, 99, 114, 105, 112, 116]

/-- A service whose job is `IN_PROGRESS` at the first two polls and `COMPLETED`
at the third, with a transcript that can be fetched: the status sequence
`[InProgress, InProgress, Completed]`. -/
def completesAtThirdPoll : Service where
  startJob := none
  getJob := fun k =>
    if k < 2 then Outcome.ok ⟨JobStatus.inProgress, none, none⟩
    else Outcome.ok ⟨JobStatus.completed, some "https://transcripts/job.json", none⟩
  fetchTranscript := fun _ => Outcome.ok sampleTranscript

/-- A service whose job is `IN_PROGRESS` at every poll. -/
def neverCompletes : Service where
  startJob := none
  getJob := fun _ => Outcome.ok ⟨JobStatus.inProgress, none, none⟩
  fetchTranscript := fun _ => Outcome.error "no transcript"

/-- The string `"hello world"`. -/
def helloWorld : GoString := [104, 101, 108, 108, 111, 32, 119, 111, 114, 108, 100]

/-- The string `"helo world"`. -/
def heloWorld : GoString := [104, 101, 108, 111, 32, 119, 111, 114, 108, 100]

/-- The string `" Hello  World "`. -/
def paddedHelloWorld : GoString :=
  [32, 72, 101, 108, 108, 111, 32, 32, 87, 111, 114, 108, 100, 32]

/-- A string of 160 letters `a`. -/
def longReference : GoString := List.replicate 160 97

/-- The string `"a"`. -/
def shortAnswer : GoString := [97]

/-- The string `"a \v b"`: a vertical tab between two spaces. -/
def verticalTabText : GoString := [0x61, 0x20, 0x0B, 0x20, 0x62]

/-- The string `"a　　b"`: two ideographic spaces, U+3000, between two
letters. -/
def ideographicSpaceText : GoString := [0x61, 0xE3, 0x80, 0x80, 0xE3, 0x80, 0x80, 0x62]

/-! ## Edit scripts are closed under context, reversal and composition -/

section Scripts

variable {α : Type}

theorem edit_cons (x : α) {a b : List α} (e : Edit a b) : Edit (x :: a) (x :: b) := by
  cases e with
  | insert l c r => exact Edit.insert (x :: l) c r
  | delete l c r => exact Edit.delete (x :: l) c r
  | substitute l c d r h => exact Edit.substitute (x :: l) c d r h

theorem edit_symm {a b : List α} (e : Edit a b) : Edit b a := by
  cases e with
  | insert l c r => exact Edit.delete l c r
  | delete l c r => exact Edit.insert l c r
  | substitute l c d r h => exact Edit.substitute l d c r (Ne.symm h)

theorem edit_reverse {a b : List α} (e : Edit a b) : Edit a.reverse b.reverse := by
  cases e with
  | insert l c r => simpa using Edit.insert r.reverse c l.reverse
  | delete l c r => simpa using Edit.delete r.reverse c l.reverse
  | substitute l c d r h => simpa using Edit.substitute r.reverse c d l.reverse h

theorem editPath_cons (x : α) {a b : List α} {n : Nat} (p : EditPath a b n) :
    EditPath (x :: a) (x :: b) n := by
  induction p with
  | done a => exact EditPath.done _
  | step e _ ih => exact EditPath.step (edit_cons x e) ih

theorem editPath_snoc {a b c : List α} {n : Nat} (p : EditPath a b n) (e : Edit b c) :
    EditPath a c (n + 1) := by
  induction p with
  | done a => exact EditPath.step e (EditPath.done _)
  | step e1 _ ih => exact EditPath.step e1 (ih e)

theorem editPath_symm {a b : List α} {n : Nat} (p : EditPath a b n) : EditPath b a n := by
  induction p with
  | done a => exact EditPath.done _
  | step e _ ih => exact editPath_snoc ih (edit_symm e)

theorem editPath_reverse {a b : List α} {n : Nat} (p : EditPath a b n) :
    EditPath a.reverse b.reverse n := by
  induction p with
  | done a => exact EditPath.done _
  | step e _ ih => exact EditPath.step (edit_reverse e) ih

theorem editPath_trans {a b c : List α} {n m : Nat} (p : EditPath a b n)
    (q : EditPath b c m) : EditPath a c (n + m) := by
  induction p with
  | done a => simpa using q
  | step e _ ih =>
    rw [Nat.add_right_comm]
    exact EditPath.step e (ih q)

theorem editPath_nil_left (b : List α) : EditPath [] b b.length := by
  induction b with
  | nil => exact EditPath.done _
  | cons y ys ih => exact EditPath.step (Edit.insert [] y []) (editPath_cons y ih)

theorem editPath_nil_right (a : List α) : EditPath a [] a.length := by
  induction a with
  | nil => exact EditPath.done _
  | cons x xs ih => exact EditPath.step (Edit.delete [] x xs) ih

end Scripts

/-! ## The recurrence and edit scripts -/

section Recurrence

variable {α : Type} [DecidableEq α]

theorem lev_nil_left (ys : List α) : lev [] ys = ys.length := by
  simp [lev]

theorem lev_nil_right (xs : List α) : lev xs [] = xs.length := by
  cases xs <;> simp [lev]

theorem lev_cons_cons (x y : α) (xs ys : List α) :
    lev (x :: xs) (y :: ys) =
      Min.min (Min.min (lev xs (y :: ys) + 1) (lev (x :: xs) ys + 1))
        (lev xs ys + if x ≠ y then 1 else 0) := by
  rw [lev]

theorem lev_self (a : List α) : lev a a = 0 := by
  induction a with
  | nil => simp [lev]
  | cons x xs ih => rw [lev_cons_cons]; simp [ih]

/-- Deleting the head of the first string costs at most one. -/
theorem lev_cons_left_le (x : α) (a b : List α) : lev (x :: a) b ≤ lev a b + 1 := by
  cases b with
  | nil => simp [lev_nil_right]
  | cons y ys => rw [lev_cons_cons]; omega

/-- Inserting a head into the second string costs at most one. -/
theorem lev_cons_right_le (y : α) (a b : List α) : lev a (y :: b) ≤ lev a b + 1 := by
  cases a with
  | nil => simp [lev_nil_left]
  | cons x xs => rw [lev_cons_cons]; omega

theorem lev_le_cons_left (x : α) (a : List α) : ∀ b, lev a b ≤ lev (x :: a) b + 1 := by
  intro b
  induction b with
  | nil => simp only [lev_nil_right, List.length_cons]; omega
  | cons y ys ih =>
    have h1 := lev_cons_right_le y a ys
    rw [lev_cons_cons]
    omega

theorem lev_subst_head (x z : α) (a : List α) :
    ∀ b, lev (x :: a) b ≤ lev (z :: a) b + 1 := by
  intro b
  induction b with
  | nil => simp [lev_nil_right]
  | cons y ys ih =>
    rw [lev_cons_cons, lev_cons_cons]
    split_ifs <;> omega

theorem lev_context (h : α) (A B : List α) (H : ∀ c, lev A c ≤ lev B c + 1) :
    ∀ c, lev (h :: A) c ≤ lev (h :: B) c + 1 := by
  intro c
  induction c with
  | nil =>
    have := H []
    simp only [lev_nil_right] at this
    simp only [lev_nil_right, List.length_cons]
    omega
  | cons y ys ih =>
    have h1 := H (y :: ys)
    have h2 := H ys
    rw [lev_cons_cons, lev_cons_cons]
    omega

/-- One edit of the first string changes the recurrence's value by at most one. -/
theorem lev_edit_le {a b : List α} (e : Edit a b) : ∀ c, lev a c ≤ lev b c + 1 := by
  cases e with
  | insert l ch r =>
    induction l with
    | nil => exact lev_le_cons_left ch r
    | cons h t ih => exact lev_context h _ _ ih
  | delete l ch r =>
    induction l with
    | nil => exact fun c => lev_cons_left_le ch r c
    | cons h t ih => exact lev_context h _ _ ih
  | substitute l ch d r hne =>
    induction l with
    | nil => exact lev_subst_head ch d r
    | cons h t ih => exact lev_context h _ _ ih

/-- No edit script is shorter than the value of the recurrence. -/
theorem lev_le_of_editPath {a b : List α} {n : Nat} (p : EditPath a b n) : lev a b ≤ n := by
  induction p with
  | done a => simp [lev_self]
  | step e _ ih => exact le_trans (lev_edit_le e _) (Nat.succ_le_succ ih)

/-- An edit script of exactly the recurrence's length exists. -/
theorem editPath_lev (a : List α) : ∀ b, EditPath a b (lev a b) := by
  induction a with
  | nil => intro b; rw [lev_nil_left]; exact editPath_nil_left b
  | cons x xs iha =>
    intro b
    induction b with
    | nil => rw [lev_nil_right]; exact editPath_nil_right _
    | cons y ys ihb =>
      rw [lev_cons_cons]
      have hdel : EditPath (x :: xs) (y :: ys) (lev xs (y :: ys) + 1) :=
        EditPath.step (Edit.delete [] x xs) (iha (y :: ys))
      have hins : EditPath (x :: xs) (y :: ys) (lev (x :: xs) ys + 1) :=
        EditPath.step (Edit.insert [] y (x :: xs)) (editPath_cons y ihb)
      have hsub : EditPath (x :: xs) (y :: ys) (lev xs ys + if x ≠ y then 1 else 0) := by
        by_cases hxy : x = y
        · subst hxy; simpa using editPath_cons x (iha ys)
        · simpa [hxy] using EditPath.step (Edit.substitute [] x y xs hxy) (editPath_cons y (iha ys))
      rcases Nat.le_total (lev xs (y :: ys) + 1) (lev (x :: xs) ys + 1) with h1 | h1 <;>
        rcases Nat.le_total (Min.min (lev xs (y :: ys) + 1) (lev (x :: xs) ys + 1))
          (lev xs ys + if x ≠ y then 1 else 0) with h2 | h2
      · rw [Nat.min_eq_left h2, Nat.min_eq_left h1]; exact hdel
      · rw [Nat.min_eq_right h2]; exact hsub
      · rw [Nat.min_eq_left h2, Nat.min_eq_right h1]; exact hins
      · rw [Nat.min_eq_right h2]; exact hsub

end Recurrence

/-! ## The table of `levenshteinDistance` holds the recurrence on prefixes -/

section TableProof

theorem table_get_set {dp : Table} {rows cols : Nat} (hs : dp.Shaped rows cols)
    {i j : Nat} (hi : i ≤ rows) (hj : j ≤ cols) (v i2 j2 : Nat) :
    (dp.set i j v).get i2 j2 = if i2 = i ∧ j2 = j then v else dp.get i2 j2 := by
  obtain ⟨hl, hr⟩ := hs
  have hrow := hr i hi
  unfold Table.get Table.set
  by_cases h1 : i2 = i
  · subst h1
    have : i2 < dp.length := by omega
    simp only [List.getD_eq_getElem?_getD, List.getElem?_set, this, if_true, true_and]
    by_cases h2 : j2 = j
    · subst h2
      have hj2 : j2 < (dp[i2]?.getD []).length := by
        rw [← List.getD_eq_getElem?_getD]; omega
      simp [hj2]
    · have h2b : ¬ j = j2 := fun h => h2 h.symm
      simp [h2, h2b]
  · have h1b : ¬ i = i2 := fun h => h1 h.symm
    simp [List.getD_eq_getElem?_getD, List.getElem?_set, h1, h1b]

theorem table_shaped_set {dp : Table} {rows cols : Nat} (hs : dp.Shaped rows cols)
    (i j v : Nat) : (dp.set i j v).Shaped rows cols := by
  obtain ⟨hl, hr⟩ := hs
  refine ⟨by simp [Table.set, hl], fun i2 hi2 => ?_⟩
  have := hr i2 hi2
  unfold Table.set
  by_cases h1 : i = i2
  · subst h1
    have hlt : i < dp.length := by omega
    simp only [List.getD_eq_getElem?_getD, List.getElem?_set, hlt, if_true] at this ⊢
    simpa using this
  · simpa [List.getD_eq_getElem?_getD, List.getElem?_set, h1] using this

theorem makeTable_shaped (len1 len2 : Nat) : (makeTable len1 len2).Shaped len1 len2 := by
  refine ⟨by simp [makeTable], fun i hi => ?_⟩
  have : i < len1 + 1 := by omega
  simp [makeTable, List.getD_eq_getElem?_getD, List.getElem?_replicate, this]

theorem initColumn_fold {dp : Table} {len1 len2 : Nat} (hs : dp.Shaped len1 len2) :
    ∀ n, n ≤ len1 + 1 →
      ((List.range n).foldl (fun dp i => dp.set i 0 i) dp).Shaped len1 len2 ∧
      ∀ i j, ((List.range n).foldl (fun dp i => dp.set i 0 i) dp).get i j =
        if i < n ∧ j = 0 then i else dp.get i j := by
  intro n
  induction n with
  | zero => intro _; exact ⟨hs, fun i j => by simp⟩
  | succ n ih =>
    intro hn
    obtain ⟨h1, h2⟩ := ih (by omega)
    rw [List.range_succ, List.foldl_append]
    refine ⟨table_shaped_set h1 _ _ _, fun i j => ?_⟩
    simp only [List.foldl_cons, List.foldl_nil]
    rw [table_get_set h1 (by omega) (Nat.zero_le _), h2]
    by_cases hi : i = n
    · subst hi; by_cases hj : j = 0 <;> simp [hj]
    · by_cases hj : j = 0
      · subst hj
        by_cases hlt : i < n
        · have : i < n + 1 := by omega
          simp [hi, hlt, this]
        · have : ¬ i < n + 1 := by omega
          simp [hi, hlt, this]
      · simp [hi, hj]

theorem initRow_fold {dp : Table} {len1 len2 : Nat} (hs : dp.Shaped len1 len2) :
    ∀ n, n ≤ len2 + 1 →
      ((List.range n).foldl (fun dp j => dp.set 0 j j) dp).Shaped len1 len2 ∧
      ∀ i j, ((List.range n).foldl (fun dp j => dp.set 0 j j) dp).get i j =
        if i = 0 ∧ j < n then j else dp.get i j := by
  intro n
  induction n with
  | zero => intro _; exact ⟨hs, fun i j => by simp⟩
  | succ n ih =>
    intro hn
    obtain ⟨h1, h2⟩ := ih (by omega)
    rw [List.range_succ, List.foldl_append]
    refine ⟨table_shaped_set h1 _ _ _, fun i j => ?_⟩
    simp only [List.foldl_cons, List.foldl_nil]
    rw [table_get_set h1 (Nat.zero_le _) (by omega), h2]
    by_cases hj : j = n
    · subst hj; by_cases hi : i = 0 <;> simp [hi]
    · by_cases hi : i = 0
      · subst hi
        by_cases hlt : j < n
        · have : j < n + 1 := by omega
          simp [hj, hlt, this]
        · have : ¬ j < n + 1 := by omega
          simp [hj, hlt, this]
      · simp [hi, hj]

theorem prefixLev_zero_left (s1 s2 : GoString) {j : Nat} (hj : j ≤ s2.length) :
    prefixLev s1 s2 0 j = j := by
  simp [prefixLev, lev_nil_left, hj]

theorem prefixLev_zero_right (s1 s2 : GoString) {i : Nat} (hi : i ≤ s1.length) :
    prefixLev s1 s2 i 0 = i := by
  simp [prefixLev, lev_nil_right, hi]

theorem reverse_take_succ (s : GoString) {i : Nat} (hi : i < s.length) :
    (s.take (i + 1)).reverse = s.getD i 0 :: (s.take i).reverse := by
  rw [List.take_succ]
  simp [List.getD_eq_getElem?_getD, List.getElem?_eq_getElem hi]

theorem prefixLev_succ (s1 s2 : GoString) {i j : Nat} (hi : i < s1.length)
    (hj : j < s2.length) :
    prefixLev s1 s2 (i + 1) (j + 1) =
      Min.min (Min.min (prefixLev s1 s2 i (j + 1) + 1) (prefixLev s1 s2 (i + 1) j + 1))
        (prefixLev s1 s2 i j + if s1.getD i 0 ≠ s2.getD j 0 then 1 else 0) := by
  unfold prefixLev
  rw [reverse_take_succ s1 hi, reverse_take_succ s2 hj, lev_cons_cons]

theorem min_eq (a b c : Nat) : min a b c = Min.min (Min.min a b) c := by
  unfold min
  split_ifs <;> omega

theorem filled_init (s1 s2 : GoString) :
    Filled s1 s2 (initRow s2.length (initColumn s1.length (makeTable s1.length s2.length))) 1 1 := by
  obtain ⟨h1, h2⟩ := initColumn_fold (makeTable_shaped s1.length s2.length) (s1.length + 1)
    (Nat.le_refl _)
  obtain ⟨h3, h4⟩ := initRow_fold h1 (s2.length + 1) (Nat.le_refl _)
  refine ⟨h3, fun i2 j2 hi hj hk => ?_⟩
  unfold initRow initColumn
  rw [h4, h2]
  by_cases hi0 : i2 = 0
  · subst hi0
    have : j2 < s2.length + 1 := by omega
    simp [this, prefixLev_zero_left s1 s2 hj]
  · have hj0 : j2 = 0 := by omega
    subst hj0
    have : i2 < s1.length + 1 := by omega
    simp [hi0, this, prefixLev_zero_right s1 s2 hi]

theorem filled_cell (s1 s2 : GoString) {dp : Table} {i j : Nat} (hi1 : 1 ≤ i)
    (hi : i ≤ s1.length) (hj1 : 1 ≤ j) (hj : j ≤ s2.length) (h : Filled s1 s2 dp i j) :
    Filled s1 s2 (fillCell s1 s2 i j dp) i (j + 1) := by
  obtain ⟨hs, hc⟩ := h
  refine ⟨table_shaped_set hs _ _ _, fun i2 j2 hi2 hj2 hk => ?_⟩
  unfold fillCell
  simp only []
  rw [table_get_set hs hi hj]
  by_cases hij : i2 = i ∧ j2 = j
  · obtain ⟨rfl, rfl⟩ := hij
    rw [if_pos ⟨rfl, rfl⟩, min_eq]
    rw [hc (i2 - 1) j2 (by omega) hj (by omega), hc i2 (j2 - 1) hi (by omega) (by omega),
      hc (i2 - 1) (j2 - 1) (by omega) (by omega) (by omega)]
    obtain ⟨a, rfl⟩ : ∃ a, i2 = a + 1 := ⟨i2 - 1, by omega⟩
    obtain ⟨b, rfl⟩ : ∃ b, j2 = b + 1 := ⟨j2 - 1, by omega⟩
    simp only [Nat.add_sub_cancel]
    rw [prefixLev_succ s1 s2 (by omega) (by omega)]
  · rw [if_neg hij]
    exact hc i2 j2 hi2 hj2 (by omega)

theorem filled_row_fold (s1 s2 : GoString) {i : Nat} (hi1 : 1 ≤ i) (hi : i ≤ s1.length) :
    ∀ n start dp, 1 ≤ start → start + n = s2.length + 1 → Filled s1 s2 dp i start →
      Filled s1 s2 ((List.range' start n).foldl (fun dp j => fillCell s1 s2 i j dp) dp) i
        (s2.length + 1) := by
  intro n
  induction n with
  | zero =>
    intro start dp _ hn h
    have : start = s2.length + 1 := by omega
    subst this
    simpa using h
  | succ n ih =>
    intro start dp h1 hn h
    simp only [List.range', List.foldl_cons]
    exact ih (start + 1) _ (by omega) (by omega) (filled_cell s1 s2 hi1 hi h1 (by omega) h)

theorem filled_row (s1 s2 : GoString) {dp : Table} {i : Nat} (hi1 : 1 ≤ i)
    (hi : i ≤ s1.length) (h : Filled s1 s2 dp i 1) :
    Filled s1 s2 (fillRow s1 s2 i dp) (i + 1) 1 := by
  obtain ⟨hs, hc⟩ := filled_row_fold s1 s2 hi1 hi s2.length 1 dp (Nat.le_refl _)
    (Nat.add_comm _ _) h
  exact ⟨hs, fun i2 j2 hi2 hj2 hk => hc i2 j2 hi2 hj2 (by omega)⟩

theorem filled_table_fold (s1 s2 : GoString) :
    ∀ n start dp, 1 ≤ start → start + n = s1.length + 1 → Filled s1 s2 dp start 1 →
      Filled s1 s2 ((List.range' start n).foldl (fun dp i => fillRow s1 s2 i dp) dp)
        (s1.length + 1) 1 := by
  intro n
  induction n with
  | zero =>
    intro start dp _ hn h
    have : start = s1.length + 1 := by omega
    subst this
    simpa using h
  | succ n ih =>
    intro start dp h1 hn h
    simp only [List.range', List.foldl_cons]
    exact ih (start + 1) _ (by omega) (by omega) (filled_row s1 s2 h1 (by omega) h)

/-- The value `levenshteinDistance` returns is the recurrence on the two reversed strings. -/
theorem levenshteinDistance_eq_lev (s1 s2 : GoString) :
    levenshteinDistance s1 s2 = lev s1.reverse s2.reverse := by
  obtain ⟨_, hc⟩ := filled_table_fold s1 s2 s1.length 1 _ (Nat.le_refl _) (Nat.add_comm _ _)
    (filled_init s1 s2)
  unfold levenshteinDistance
  simp only []
  unfold fillTable
  rw [hc s1.length s2.length (Nat.le_refl _) (Nat.le_refl _) (by omega)]
  simp [prefixLev]

/-- An edit script of `levenshteinDistance a b` edits transforms `a` into `b`. -/
theorem levenshteinDistance_editPath (a b : GoString) :
    EditPath a b (levenshteinDistance a b) := by
  rw [levenshteinDistance_eq_lev]
  simpa using editPath_reverse (editPath_lev a.reverse b.reverse)

/-- No edit script from `a` to `b` is shorter than `levenshteinDistance a b`. -/
theorem levenshteinDistance_le_editPath {a b : GoString} {n : Nat} (p : EditPath a b n) :
    levenshteinDistance a b ≤ n := by
  rw [levenshteinDistance_eq_lev]
  exact lev_le_of_editPath (editPath_reverse p)

end TableProof

/-! ## The polling loop of `transcribeAudio` -/

section Polling

theorem pollLoop_pending (svc : Service) (remaining polls : Nat) (log : List Event)
    {job : TranscriptionJob} (hjob : svc.getJob polls = Outcome.ok job)
    (hst : job.status.nonTerminal) :
    pollLoop svc (remaining + 1) polls log =
      pollLoop svc remaining (polls + 1) (log ++ waitRound) := by
  rw [pollLoop]
  simp only [hjob, waitRound, List.append_assoc, List.singleton_append]
  rcases hst with h | h <;> simp [h]

theorem pollLoop_wait (svc : Service) :
    ∀ (n remaining polls : Nat) (log : List Event),
      (∀ k, k < n → ∃ job, svc.getJob (polls + k) = Outcome.ok job ∧ job.status.nonTerminal) →
      pollLoop svc (n + remaining) polls log =
        pollLoop svc remaining (polls + n) (log ++ (List.replicate n waitRound).flatten) := by
  intro n
  induction n with
  | zero => intro remaining polls log _; simp
  | succ n ih =>
    intro remaining polls log h
    obtain ⟨job, hjob, hst⟩ := h 0 (Nat.succ_pos _)
    rw [Nat.add_zero] at hjob
    have hstep : n + 1 + remaining = (n + remaining) + 1 := by omega
    rw [hstep, pollLoop_pending svc _ _ _ hjob hst, ih remaining (polls + 1) _ ?_]
    · simp [List.replicate_succ, Nat.add_assoc, Nat.add_comm 1 n]
    · intro k hk
      have := h (k + 1) (by omega)
      simpa [Nat.add_assoc, Nat.add_comm 1 k] using this

theorem count_waitRounds (e : Event) (n : Nat) :
    (List.replicate n waitRound).flatten.count e = n * waitRound.count e := by
  induction n with
  | zero => simp
  | succ n ih => simp [List.replicate_succ, ih, Nat.succ_mul, Nat.add_comm]

theorem pollLoop_completed (svc : Service) (remaining polls : Nat) (log : List Event)
    {job : TranscriptionJob} {uri : String} {text : GoString}
    (hjob : svc.getJob polls = Outcome.ok job) (hst : job.status = JobStatus.completed)
    (huri : job.transcriptFileUri = some uri)
    (hfetch : svc.fetchTranscript uri = Outcome.ok text) :
    pollLoop svc (remaining + 1) polls log =
      (Outcome.ok text, log ++ waitRound ++ [Event.fetch uri, Event.deleteJob]) := by
  rw [pollLoop]
  simp [hjob, hst, huri, hfetch, waitRound]

/-- The run of `transcribeAudio` when `n` polls find the job pending and the
next one finds it completed: the result and the whole log. -/
theorem transcribeAudio_completed_log (svc : Service) (n : Nat) {job : TranscriptionJob}
    {uri : String} {text : GoString} (hstart : svc.startJob = none)
    (hn : n + 1 ≤ maxRetries)
    (hwait : ∀ k, k < n → ∃ j, svc.getJob k = Outcome.ok j ∧ j.status.nonTerminal)
    (hjob : svc.getJob n = Outcome.ok job) (hst : job.status = JobStatus.completed)
    (huri : job.transcriptFileUri = some uri)
    (hfetch : svc.fetchTranscript uri = Outcome.ok text) :
    transcribeAudio svc =
      (Outcome.ok text,
        [Event.startJob] ++ (List.replicate n waitRound).flatten ++ waitRound ++
          [Event.fetch uri, Event.deleteJob]) := by
  unfold transcribeAudio
  rw [hstart]
  simp only []
  obtain ⟨r, hr⟩ : ∃ r, maxRetries = n + (r + 1) := ⟨maxRetries - (n + 1), by omega⟩
  rw [hr, pollLoop_wait svc n (r + 1) 0 _ (by simpa using hwait)]
  rw [pollLoop_completed svc r (0 + n) _ (by simpa using hjob) hst huri hfetch]

/-- The run of `transcribeAudio` when every poll finds the job pending: the
result and the whole log. -/
theorem transcribeAudio_timeout_log (svc : Service) (hstart : svc.startJob = none)
    (hwait : ∀ k, k < maxRetries →
      ∃ j, svc.getJob k = Outcome.ok j ∧ j.status.nonTerminal) :
    transcribeAudio svc =
      (Outcome.error "transcription job timed out",
        [Event.startJob] ++ (List.replicate maxRetries waitRound).flatten) := by
  unfold transcribeAudio
  rw [hstart]
  simp only []
  have := pollLoop_wait svc maxRetries 0 0 [Event.startJob] (by simpa using hwait)
  rw [Nat.add_zero] at this
  rw [this, pollLoop]

end Polling

/-! ## Rounding to `float64` keeps the bounds the score needs -/

section Rounding

theorem log2Aux_spec : ∀ fuel n, n ≤ fuel → 0 < n →
    2 ^ log2Aux fuel n ≤ n ∧ n < 2 ^ (log2Aux fuel n + 1) := by
  intro fuel
  induction fuel with
  | zero => intro n h1 h2; omega
  | succ fuel ih =>
    intro n h1 h2
    unfold log2Aux
    by_cases hn : n < 2
    · have : n = 1 := by omega
      subst this
      simp
    · rw [if_neg hn]
      obtain ⟨h3, h4⟩ := ih (n / 2) (by omega) (by omega)
      have e1 : 2 ^ (log2Aux fuel (n / 2) + 1) = 2 ^ log2Aux fuel (n / 2) * 2 := pow_succ _ _
      have e2 : 2 ^ (log2Aux fuel (n / 2) + 1 + 1) = 2 ^ (log2Aux fuel (n / 2) + 1) * 2 :=
        pow_succ _ _
      omega

theorem log2_spec {n : Nat} (hn : 0 < n) : 2 ^ log2 n ≤ n ∧ n < 2 ^ (log2 n + 1) :=
  log2Aux_spec n n (Nat.le_refl _) hn

/-- The binary exponent is not above the rational: `2^e ≤ n / d`. -/
theorem binadeExp_le {n d : Nat} (hn : 0 < n) (hd : 0 < d) :
    d * 2 ^ (binadeExp n d).toNat ≤ n * 2 ^ (-binadeExp n d).toNat := by
  obtain ⟨hn1, _⟩ := log2_spec hn
  obtain ⟨_, hd2⟩ := log2_spec hd
  unfold binadeExp
  simp only []
  split_ifs with h
  · exact h
  · by_cases hk : log2 d + 1 ≤ log2 n
    · have t1 : ((log2 n : Int) - (log2 d : Int) - 1).toNat = log2 n - log2 d - 1 := by omega
      have t2 : (-((log2 n : Int) - (log2 d : Int) - 1)).toNat = 0 := by omega
      rw [t1, t2, pow_zero, Nat.mul_one]
      have : 2 ^ (log2 d + 1) * 2 ^ (log2 n - log2 d - 1) = 2 ^ log2 n := by
        rw [← pow_add]; congr 1; omega
      calc d * 2 ^ (log2 n - log2 d - 1)
          ≤ 2 ^ (log2 d + 1) * 2 ^ (log2 n - log2 d - 1) :=
            Nat.mul_le_mul_right _ (Nat.le_of_lt hd2)
        _ = 2 ^ log2 n := this
        _ ≤ n := hn1
    · have t1 : ((log2 n : Int) - (log2 d : Int) - 1).toNat = 0 := by omega
      have t2 : (-((log2 n : Int) - (log2 d : Int) - 1)).toNat = log2 d + 1 - log2 n := by
        omega
      rw [t1, t2, pow_zero, Nat.mul_one]
      have : 2 ^ log2 n * 2 ^ (log2 d + 1 - log2 n) = 2 ^ (log2 d + 1) := by
        rw [← pow_add]; congr 1; omega
      calc d ≤ 2 ^ (log2 d + 1) := Nat.le_of_lt hd2
        _ = 2 ^ log2 n * 2 ^ (log2 d + 1 - log2 n) := this.symm
        _ ≤ n * 2 ^ (log2 d + 1 - log2 n) := Nat.mul_le_mul_right _ hn1

/-- The rational is below the next power of two: `n / d < 2^(e+1)`. -/
theorem binadeExp_lt {n d : Nat} (hn : 0 < n) (hd : 0 < d) :
    n * 2 ^ (-(binadeExp n d + 1)).toNat < d * 2 ^ (binadeExp n d + 1).toNat := by
  obtain ⟨_, hn2⟩ := log2_spec hn
  obtain ⟨hd1, _⟩ := log2_spec hd
  unfold binadeExp
  simp only []
  split_ifs with h
  · by_cases hk : log2 d ≤ log2 n + 1
    · have t1 : (-((log2 n : Int) - (log2 d : Int) + 1)).toNat = 0 := by omega
      have t2 : ((log2 n : Int) - (log2 d : Int) + 1).toNat = log2 n + 1 - log2 d := by omega
      rw [t1, t2, pow_zero, Nat.mul_one]
      have : 2 ^ log2 d * 2 ^ (log2 n + 1 - log2 d) = 2 ^ (log2 n + 1) := by
        rw [← pow_add]; congr 1; omega
      calc n < 2 ^ (log2 n + 1) := hn2
        _ = 2 ^ log2 d * 2 ^ (log2 n + 1 - log2 d) := this.symm
        _ ≤ d * 2 ^ (log2 n + 1 - log2 d) := Nat.mul_le_mul_right _ hd1
    · have t1 : (-((log2 n : Int) - (log2 d : Int) + 1)).toNat = log2 d - log2 n - 1 := by
        omega
      have t2 : ((log2 n : Int) - (log2 d : Int) + 1).toNat = 0 := by omega
      rw [t1, t2, pow_zero, Nat.mul_one]
      have : 2 ^ (log2 n + 1) * 2 ^ (log2 d - log2 n - 1) = 2 ^ log2 d := by
        rw [← pow_add]; congr 1; omega
      calc n * 2 ^ (log2 d - log2 n - 1)
          < 2 ^ (log2 n + 1) * 2 ^ (log2 d - log2 n - 1) :=
            Nat.mul_lt_mul_of_pos_right hn2 (by positivity)
        _ = 2 ^ log2 d := this
        _ ≤ d := hd1
  · have e : (log2 n : Int) - (log2 d : Int) - 1 + 1 = (log2 n : Int) - (log2 d : Int) := by
      omega
    rw [e]
    exact Nat.lt_of_not_le h

/-- Rounding to nearest does not pass a natural number above the quotient. -/
theorem roundHalfEven_le {n d k : Nat} (hd : 0 < d) (h : n ≤ k * d) :
    roundHalfEven n d ≤ k := by
  have hq : n / d ≤ k := Nat.div_le_of_le_mul (by rwa [Nat.mul_comm] at h)
  have hmod := Nat.div_add_mod n d
  have hlt := Nat.mod_lt n hd
  unfold roundHalfEven
  rcases Nat.lt_or_ge (n / d) k with hlt2 | hge
  · split_ifs <;> omega
  · have hqk : n / d = k := Nat.le_antisymm hq hge
    have hmul : d * (n / d) = k * d := by rw [hqk, Nat.mul_comm]
    have : n % d = 0 := by omega
    simp [this, hd, hqk]

/-- Rounding to nearest does not pass a natural number below the quotient. -/
theorem le_roundHalfEven {n d k : Nat} (hd : 0 < d) (h : k * d ≤ n) :
    k ≤ roundHalfEven n d := by
  have hq : k ≤ n / d := (Nat.le_div_iff_mul_le hd).2 h
  unfold roundHalfEven
  split_ifs <;> omega

/-- The significand `roundPos` rounds to has at most 53 bits (it is `2^53`
when the rounding carries into the next binade), and the unit in the last
place is at least `2^-1074`: the rounded number is a `float64`. -/
theorem roundPos_significand {n d : Nat} (hn : 0 < n) (hd : 0 < d) :
    roundHalfEven (n * 2 ^ (-ulpExp n d).toNat) (d * 2 ^ (ulpExp n d).toNat) ≤ 2 ^ 53 ∧
      -1074 ≤ ulpExp n d := by
  have hlt := binadeExp_lt hn hd
  refine ⟨?_, by unfold ulpExp; exact le_max_right _ _⟩
  apply roundHalfEven_le (by positivity)
  unfold ulpExp
  generalize binadeExp n d = e at hlt
  by_cases hsub : e - 52 < -1074
  · have hu : Max.max (e - 52) (-1074) = -1074 := max_eq_right (le_of_lt hsub)
    have t1 : (-(e + 1)).toNat = ((-(e + 1)).toNat - 1021) + 1021 := by omega
    have t2 : (e + 1).toNat = 0 := by omega
    rw [hu]
    rw [t2, pow_zero, Nat.mul_one, t1, pow_add] at hlt
    have hpos : 1 ≤ 2 ^ ((-(e + 1)).toNat - 1021) := Nat.one_le_two_pow
    have t4 : (-(-1074 : Int)).toNat = 1021 + 53 := by decide
    have t5 : (-1074 : Int).toNat = 0 := by decide
    rw [t4, t5, pow_zero, Nat.mul_one, pow_add]
    have h1 : n * 2 ^ 1021 ≤ n * (2 ^ ((-(e + 1)).toNat - 1021) * 2 ^ 1021) := by
      apply Nat.mul_le_mul_left
      calc 2 ^ 1021 = 1 * 2 ^ 1021 := (Nat.one_mul _).symm
        _ ≤ 2 ^ ((-(e + 1)).toNat - 1021) * 2 ^ 1021 := Nat.mul_le_mul_right _ hpos
    have h2 : n * 2 ^ 1021 < d := lt_of_le_of_lt h1 hlt
    calc n * (2 ^ 1021 * 2 ^ 53) = n * 2 ^ 1021 * 2 ^ 53 := by rw [Nat.mul_assoc]
      _ ≤ d * 2 ^ 53 := Nat.mul_le_mul_right _ (le_of_lt h2)
      _ = 2 ^ 53 * d := Nat.mul_comm _ _
  · have hu : Max.max (e - 52) (-1074) = e - 52 := max_eq_left (by omega)
    rw [hu]
    by_cases h1 : 52 ≤ e
    · have t1 : (-(e - 52)).toNat = 0 := by omega
      have t2 : (e + 1).toNat = (e - 52).toNat + 53 := by omega
      have t3 : (-(e + 1)).toNat = 0 := by omega
      rw [t3, pow_zero, Nat.mul_one, t2, pow_add] at hlt
      rw [t1, pow_zero, Nat.mul_one]
      calc n ≤ d * (2 ^ (e - 52).toNat * 2 ^ 53) := le_of_lt hlt
        _ = 2 ^ 53 * (d * 2 ^ (e - 52).toNat) := by ring
    · by_cases h2 : 0 ≤ e + 1
      · have t1 : (e - 52).toNat = 0 := by omega
        have t2 : (e + 1).toNat + (-(e - 52)).toNat = 53 := by omega
        have t3 : (-(e + 1)).toNat = 0 := by omega
        rw [t3, pow_zero, Nat.mul_one] at hlt
        rw [t1, pow_zero, Nat.mul_one]
        calc n * 2 ^ (-(e - 52)).toNat
            ≤ d * 2 ^ (e + 1).toNat * 2 ^ (-(e - 52)).toNat :=
              Nat.mul_le_mul_right _ (le_of_lt hlt)
          _ = d * 2 ^ ((e + 1).toNat + (-(e - 52)).toNat) := by rw [pow_add]; ring
          _ = 2 ^ 53 * d := by rw [t2]; ring
      · have t1 : (e - 52).toNat = 0 := by omega
        have t2 : (-(e - 52)).toNat = (-(e + 1)).toNat + 53 := by omega
        have t3 : (e + 1).toNat = 0 := by omega
        rw [t3, pow_zero, Nat.mul_one] at hlt
        rw [t1, pow_zero, Nat.mul_one, t2, pow_add]
        calc n * (2 ^ (-(e + 1)).toNat * 2 ^ 53)
            = n * 2 ^ (-(e + 1)).toNat * 2 ^ 53 := by ring
          _ ≤ d * 2 ^ 53 := Nat.mul_le_mul_right _ (le_of_lt hlt)
          _ = 2 ^ 53 * d := by ring

theorem ulpExp_nonpos {n d c : Nat} (hn : 0 < n) (hd : 0 < d) (h : n ≤ c * d)
    (hc : c < 2 ^ 53) : ulpExp n d ≤ 0 := by
  have hE := binadeExp_le hn hd
  unfold ulpExp
  by_contra hcon
  have he : 53 ≤ binadeExp n d := by omega
  have t1 : (-binadeExp n d).toNat = 0 := by omega
  rw [t1, pow_zero, Nat.mul_one] at hE
  have hp : 2 ^ 53 ≤ 2 ^ (binadeExp n d).toNat :=
    Nat.pow_le_pow_right (by decide) (by omega)
  have h1 : d * 2 ^ 53 ≤ n := le_trans (Nat.mul_le_mul_left _ hp) hE
  have h2 : c * d < 2 ^ 53 * d := Nat.mul_lt_mul_of_pos_right hc hd
  have h3 : d * 2 ^ 53 = 2 ^ 53 * d := Nat.mul_comm _ _
  omega

theorem ulpExp_pos {n d : Nat} (hn : 0 < n) (hd : 0 < d) (h : 0 < ulpExp n d) :
    2 ^ 52 * (d * 2 ^ (ulpExp n d).toNat) ≤ n := by
  have hE := binadeExp_le hn hd
  unfold ulpExp at h ⊢
  have he : 53 ≤ binadeExp n d := by omega
  have t1 : (-binadeExp n d).toNat = 0 := by omega
  have t2 : (binadeExp n d).toNat = (Max.max (binadeExp n d - 52) (-1074)).toNat + 52 := by
    omega
  rw [t1, pow_zero, Nat.mul_one, t2, pow_add] at hE
  calc 2 ^ 52 * (d * 2 ^ (Max.max (binadeExp n d - 52) (-1074)).toNat)
      = d * (2 ^ (Max.max (binadeExp n d - 52) (-1074)).toNat * 2 ^ 52) := by ring
    _ ≤ n := hE

theorem roundPos_nonneg (n d : Nat) : 0 ≤ roundPos n d := by
  unfold roundPos
  simp only [Rat.mkRat_eq_div]
  positivity

/-- Rounding to `float64` does not pass a natural number below `2^53` that is
above the rational. -/
theorem roundPos_le {n d c : Nat} (hn : 0 < n) (hd : 0 < d) (h : n ≤ c * d)
    (hc : c < 2 ^ 53) : roundPos n d ≤ (c : ℚ) := by
  have hu := ulpExp_nonpos hn hd h hc
  unfold roundPos
  simp only []
  have t1 : (ulpExp n d).toNat = 0 := by omega
  rw [t1, pow_zero, Nat.mul_one, Nat.mul_one]
  have hm : roundHalfEven (n * 2 ^ (-ulpExp n d).toNat) d ≤ c * 2 ^ (-ulpExp n d).toNat := by
    apply roundHalfEven_le hd
    calc n * 2 ^ (-ulpExp n d).toNat ≤ c * d * 2 ^ (-ulpExp n d).toNat :=
          Nat.mul_le_mul_right _ h
      _ = c * 2 ^ (-ulpExp n d).toNat * d := by ring
  rw [Rat.mkRat_eq_div]
  have hpos : (0 : ℚ) < ((2 ^ (-ulpExp n d).toNat : Nat) : ℚ) := by positivity
  rw [div_le_iff₀ hpos]
  exact_mod_cast hm

/-- Rounding to `float64` does not pass a natural number below `2^53` that is
below the rational. -/
theorem le_roundPos {n d c : Nat} (hn : 0 < n) (hd : 0 < d) (h : c * d ≤ n)
    (hc : c < 2 ^ 53) : (c : ℚ) ≤ roundPos n d := by
  unfold roundPos
  simp only []
  rcases Int.lt_or_le 0 (ulpExp n d) with hu | hu
  · have hE := ulpExp_pos hn hd hu
    have t1 : (-ulpExp n d).toNat = 0 := by omega
    rw [t1, pow_zero, Nat.mul_one]
    have hm : 2 ^ 52 ≤ roundHalfEven n (d * 2 ^ (ulpExp n d).toNat) :=
      le_roundHalfEven (by positivity) hE
    have hp : 2 ≤ 2 ^ (ulpExp n d).toNat := by
      calc 2 = 2 ^ 1 := rfl
        _ ≤ 2 ^ (ulpExp n d).toNat := Nat.pow_le_pow_right (by decide) (by omega)
    have hbig : c ≤ roundHalfEven n (d * 2 ^ (ulpExp n d).toNat) * 2 ^ (ulpExp n d).toNat := by
      calc c ≤ 2 ^ 52 * 2 := by omega
        _ ≤ roundHalfEven n (d * 2 ^ (ulpExp n d).toNat) * 2 ^ (ulpExp n d).toNat :=
          Nat.mul_le_mul hm hp
    rw [Rat.mkRat_eq_div]
    simp only [Nat.cast_one, div_one]
    exact_mod_cast hbig
  · have t1 : (ulpExp n d).toNat = 0 := by omega
    rw [t1, pow_zero, Nat.mul_one, Nat.mul_one]
    have hm : c * 2 ^ (-ulpExp n d).toNat ≤ roundHalfEven (n * 2 ^ (-ulpExp n d).toNat) d := by
      apply le_roundHalfEven hd
      calc c * 2 ^ (-ulpExp n d).toNat * d = c * d * 2 ^ (-ulpExp n d).toNat := by ring
        _ ≤ n * 2 ^ (-ulpExp n d).toNat := Nat.mul_le_mul_right _ h
    rw [Rat.mkRat_eq_div]
    have hpos : (0 : ℚ) < ((2 ^ (-ulpExp n d).toNat : Nat) : ℚ) := by positivity
    rw [le_div_iff₀ hpos]
    exact_mod_cast hm

theorem rat_eq_natAbs_div {q : ℚ} (hq : 0 < q) :
    q = (q.num.natAbs : ℚ) / (q.den : ℚ) := by
  have h1 : 0 < q.num := Rat.num_pos.2 hq
  have h2 : (q.num.natAbs : Int) = q.num := Int.natAbs_of_nonneg (le_of_lt h1)
  have h3 : ((q.num.natAbs : Nat) : ℚ) = (q.num : ℚ) := by
    rw [← Int.cast_natCast, h2]
  rw [h3, Rat.num_div_den]

theorem f64round_zero : f64round 0 = 0 := by
  simp [f64round]

theorem f64round_nonneg {q : ℚ} (hq : 0 ≤ q) : 0 ≤ f64round q := by
  unfold f64round
  split_ifs with h1 h2
  · exact le_refl _
  · exact absurd hq (not_le.2 h2)
  · exact roundPos_nonneg _ _

theorem f64round_le_nat {q : ℚ} {c : Nat} (h : q ≤ c) (hc : c < 2 ^ 53) :
    f64round q ≤ (c : ℚ) := by
  unfold f64round
  split_ifs with h1 h2
  · exact Nat.cast_nonneg c
  · have := roundPos_nonneg q.num.natAbs q.den
    have hc0 : (0 : ℚ) ≤ (c : ℚ) := Nat.cast_nonneg c
    linarith
  · have hq : 0 < q := lt_of_le_of_ne (not_lt.1 h2) (Ne.symm h1)
    have hn : 0 < q.num.natAbs := Int.natAbs_pos.2 (ne_of_gt (Rat.num_pos.2 hq))
    have hd : 0 < q.den := q.den_pos
    apply roundPos_le hn hd _ hc
    have hdq : (0 : ℚ) < (q.den : ℚ) := by exact_mod_cast hd
    have := rat_eq_natAbs_div hq
    rw [this, div_le_iff₀ hdq] at h
    exact_mod_cast h

theorem nat_le_f64round {q : ℚ} {c : Nat} (h : (c : ℚ) ≤ q) (hc : c < 2 ^ 53) :
    (c : ℚ) ≤ f64round q := by
  have hc0 : (0 : ℚ) ≤ (c : ℚ) := Nat.cast_nonneg c
  unfold f64round
  split_ifs with h1 h2
  · rw [h1] at h; exact h
  · linarith
  · have hq : 0 < q := lt_of_le_of_ne (not_lt.1 h2) (Ne.symm h1)
    have hn : 0 < q.num.natAbs := Int.natAbs_pos.2 (ne_of_gt (Rat.num_pos.2 hq))
    have hd : 0 < q.den := q.den_pos
    apply le_roundPos hn hd _ hc
    have hdq : (0 : ℚ) < (q.den : ℚ) := by exact_mod_cast hd
    have := rat_eq_natAbs_div hq
    rw [this, le_div_iff₀ hdq] at h
    exact_mod_cast h

/-- A natural number below `2^53` is a `float64`: rounding leaves it as it is. -/
theorem f64round_nat {c : Nat} (hc : c < 2 ^ 53) : f64round (c : ℚ) = (c : ℚ) :=
  le_antisymm (f64round_le_nat (le_refl _) hc) (nat_le_f64round (le_refl _) hc)

end Rounding

/-! ## `calculateScore` -/

section Score

theorem calculateScore_eq (unicodeToLower : Nat → Nat) (a b : GoString) :
    calculateScore unicodeToLower a b =
      scoreOfCounts
        (levenshteinDistance (normalizeText unicodeToLower a) (normalizeText unicodeToLower b))
        (normalizeText unicodeToLower a).length (normalizeText unicodeToLower b).length :=
  rfl

theorem mathRound_bounds {x : ℚ} {c : Nat} (h0 : 0 ≤ x) (h1 : x ≤ c) :
    0 ≤ mathRound x ∧ mathRound x ≤ c := by
  unfold mathRound
  rw [if_pos h0]
  constructor
  · have : (0 : Int) ≤ ⌊x + 1 / 2⌋ := Int.floor_nonneg.2 (by linarith)
    exact_mod_cast this
  · have : ⌊x + 1 / 2⌋ < (c : Int) + 1 := by
      rw [Int.floor_lt]
      push_cast
      linarith
    have h2 : ⌊x + 1 / 2⌋ ≤ (c : Int) := by omega
    exact_mod_cast h2

theorem mathRound_nat (c : Nat) : mathRound (c : ℚ) = (c : ℚ) := by
  unfold mathRound
  rw [if_pos (Nat.cast_nonneg c)]
  have : ⌊(c : ℚ) + 1 / 2⌋ = (c : Int) := by
    rw [Int.floor_eq_iff]
    constructor
    · push_cast; linarith
    · push_cast; linarith
  rw [this]
  norm_cast

/-- The score of a distance and two lengths is a number from 0 to 100. -/
theorem scoreOfCounts_bounds (distance len1 len2 : Nat) :
    ∃ v, scoreOfCounts distance len1 len2 = some v ∧ 0 ≤ v ∧ v ≤ 100 := by
  unfold scoreOfCounts
  simp only []
  by_cases hmax : mathMax (f64ofInt len1) (f64ofInt len2) = 0
  · rw [if_pos hmax]
    exact ⟨0, rfl, le_refl _, by norm_num⟩
  · rw [if_neg hmax]
    simp only [f64div, if_neg hmax]
    norm_num only [if_false]
    generalize f64mul (f64sub 1 (f64round (f64ofInt distance /
      mathMax (f64ofInt len1) (f64ofInt len2)))) 100 = sim
    have hclamp : ∀ s : ℚ, (0 : ℚ) ≤ (if s < 0 then 0 else if s > 100 then 100 else s) ∧
        (if s < 0 then 0 else if s > 100 then 100 else s) ≤ ((100 : Nat) : ℚ) := by
      intro s
      push_cast
      split_ifs <;> constructor <;> linarith
    obtain ⟨hc0, hc1⟩ := hclamp sim
    generalize (if sim < 0 then 0 else if sim > 100 then 100 else sim) = cl at hc0 hc1
    have hx0 : 0 ≤ f64mul cl 100 := f64round_nonneg (by positivity)
    have hx1 : f64mul cl 100 ≤ ((10000 : Nat) : ℚ) := by
      apply f64round_le_nat _ (by norm_num)
      push_cast at hc1 ⊢
      linarith
    obtain ⟨hk0, hk1⟩ := mathRound_bounds hx0 hx1
    refine ⟨_, rfl, f64round_nonneg (by positivity), ?_⟩
    have : f64round (mathRound (f64mul cl 100) / 100) ≤ ((100 : Nat) : ℚ) := by
      apply f64round_le_nat _ (by norm_num)
      push_cast at hk1 ⊢
      linarith
    simpa using this

theorem f64ofInt_ne_zero {n : Nat} (hn : 0 < n) : f64ofInt n ≠ 0 := by
  have h1 : ((1 : Nat) : ℚ) ≤ (n : ℚ) := by exact_mod_cast hn
  have := nat_le_f64round h1 (by norm_num)
  unfold f64ofInt
  intro h0
  rw [h0] at this
  norm_num at this

theorem f64ofInt_eq_zero_iff (n : Nat) : f64ofInt n = 0 ↔ n = 0 := by
  constructor
  · intro h
    by_contra hn
    exact f64ofInt_ne_zero (Nat.pos_of_ne_zero hn) h
  · intro h
    subst h
    simp [f64ofInt, f64round_zero]

/-- The score of distance 0 between strings of one positive length is 100. -/
theorem scoreOfCounts_zero {len : Nat} (hlen : 0 < len) :
    scoreOfCounts 0 len len = some 100 := by
  have h1 : f64round (1 : ℚ) = 1 := by
    have := f64round_nat (c := 1) (by norm_num); simpa using this
  have h100 : f64round (100 : ℚ) = 100 := by
    have := f64round_nat (c := 100) (by norm_num); simpa using this
  have h10000 : f64round (10000 : ℚ) = 10000 := by
    have := f64round_nat (c := 10000) (by norm_num); simpa using this
  have hr : mathRound (10000 : ℚ) = 10000 := by
    have := mathRound_nat 10000; simpa using this
  have hmax : mathMax (f64ofInt len) (f64ofInt len) = f64ofInt len := by
    simp [mathMax]
  unfold scoreOfCounts
  simp only [hmax, if_neg (f64ofInt_ne_zero hlen), f64div]
  have hz : f64ofInt 0 = 0 := by simp [f64ofInt, f64round_zero]
  simp only [hz, zero_div, f64round_zero, f64sub, f64mul, sub_zero, h1, one_mul, h100]
  norm_num [h10000, hr, h100]

theorem levenshteinDistance_self (s : GoString) : levenshteinDistance s s = 0 := by
  rw [levenshteinDistance_eq_lev, lev_self]

end Score

/-! ## `calculateScore` and the score of the specification -/

section ScoreSpec

theorem normalizeText_ascii (tbl tbl2 : Nat → Nat) {s : GoString}
    (h : s.all (fun c => decide (c < 0x80)) = true) :
    normalizeText tbl s = normalizeText tbl2 s := by
  unfold normalizeText toLower
  simp only [h, if_true]

theorem calculateScore_ascii (tbl tbl2 : Nat → Nat) {a b : GoString}
    (ha : a.all (fun c => decide (c < 0x80)) = true)
    (hb : b.all (fun c => decide (c < 0x80)) = true) :
    calculateScore tbl a b = calculateScore tbl2 a b := by
  unfold calculateScore
  rw [normalizeText_ascii tbl tbl2 ha, normalizeText_ascii tbl tbl2 hb]

theorem scoreSpec_ascii (tbl tbl2 : Nat → Nat) {a b : GoString}
    (ha : a.all (fun c => decide (c < 0x80)) = true)
    (hb : b.all (fun c => decide (c < 0x80)) = true) :
    scoreSpec tbl a b = scoreSpec tbl2 a b := by
  unfold scoreSpec
  rw [normalizeText_ascii tbl tbl2 ha, normalizeText_ascii tbl tbl2 hb]

/-- The function `calculateScore` computes the score of the specification with every step in
`float64`. -/
theorem calculateScore_eq_scoreSpecF64 (tbl : Nat → Nat) (a b : GoString) :
    calculateScore tbl a b = some (scoreSpecF64 tbl a b) := by
  unfold calculateScore scoreSpecF64
  simp only []
  generalize f64ofInt (normalizeText tbl a).length = la
  generalize f64ofInt (normalizeText tbl b).length = lb
  generalize f64ofInt (levenshteinDistance (normalizeText tbl a) (normalizeText tbl b)) = d
  have hmax : mathMax la lb = max la lb := by
    unfold mathMax
    rcases lt_or_le la lb with h | h
    · rw [if_pos h, max_eq_right (le_of_lt h)]
    · rw [if_neg (not_lt.2 h), max_eq_left h]
  rw [hmax]
  by_cases h0 : max la lb = 0
  · rw [if_pos h0, if_pos h0]
  · rw [if_neg h0, if_neg h0]
    simp only [f64div, if_neg h0]
    norm_num only [if_false]
    generalize f64mul (f64sub 1 (f64round (d / max la lb))) 100 = sim
    have hclamp : (if sim < 0 then 0 else if sim > 100 then 100 else sim) =
        max 0 (Min.min 100 sim) := by
      split_ifs with h1 h2
      · rw [min_eq_right (by linarith), max_eq_left (le_of_lt h1)]
      · rw [min_eq_left (le_of_lt h2), max_eq_right (by norm_num)]
      · rw [min_eq_right (not_lt.1 h2), max_eq_right (not_lt.1 h1)]
    rw [hclamp]

end ScoreSpec

/-! ## The rounding error of the `float64` operations -/

section RoundingError

/-- Rounding to nearest moves the quotient by at most one half. -/
theorem roundHalfEven_error {n d : Nat} (hd : 0 < d) :
    2 * (d * roundHalfEven n d) ≤ 2 * n + d ∧ 2 * n ≤ 2 * (d * roundHalfEven n d) + d := by
  have hmod := Nat.div_add_mod n d
  have hlt := Nat.mod_lt n hd
  have hsucc : d * (n / d + 1) = d * (n / d) + d := by ring
  unfold roundHalfEven
  split_ifs
  · omega
  · rw [hsucc]; omega
  · omega
  · rw [hsucc]; omega

/-- The unit in the last place is at most `2^-52` times the rational, except
in the subnormal range, where it is `2^-1074`. -/
theorem ulpExp_small {n d : Nat} (hn : 0 < n) (hd : 0 < d) :
    2 ^ 52 * 2 ^ (ulpExp n d).toNat * d ≤ n * 2 ^ (-ulpExp n d).toNat ∨
      ((ulpExp n d).toNat = 0 ∧ (-ulpExp n d).toNat = 1074) := by
  have hE := binadeExp_le hn hd
  unfold ulpExp
  by_cases hsub : binadeExp n d - 52 < -1074
  · right
    have : Max.max (binadeExp n d - 52) (-1074) = -1074 := max_eq_right (le_of_lt hsub)
    rw [this]
    constructor <;> rfl
  · left
    have hu : Max.max (binadeExp n d - 52) (-1074) = binadeExp n d - 52 :=
      max_eq_left (by omega)
    rw [hu]
    generalize binadeExp n d = e at hE hsub
    by_cases h1 : 52 ≤ e
    · have t1 : (e - 52).toNat + 52 = e.toNat := by omega
      have t2 : (-(e - 52)).toNat = 0 := by omega
      have t3 : (-e).toNat = 0 := by omega
      rw [t2, pow_zero, Nat.mul_one]
      rw [t3, pow_zero, Nat.mul_one, ← t1, pow_add] at hE
      calc 2 ^ 52 * 2 ^ (e - 52).toNat * d = d * (2 ^ (e - 52).toNat * 2 ^ 52) := by ring
        _ ≤ n := hE
    · by_cases h2 : 0 ≤ e
      · have t1 : (e - 52).toNat = 0 := by omega
        have t2 : (-(e - 52)).toNat + e.toNat = 52 := by omega
        have t3 : (-e).toNat = 0 := by omega
        rw [t1, pow_zero, Nat.mul_one]
        rw [t3, pow_zero, Nat.mul_one] at hE
        calc 2 ^ 52 * d = 2 ^ ((-(e - 52)).toNat + e.toNat) * d := by rw [t2]
          _ = (d * 2 ^ e.toNat) * 2 ^ (-(e - 52)).toNat := by rw [pow_add]; ring
          _ ≤ n * 2 ^ (-(e - 52)).toNat := Nat.mul_le_mul_right _ hE
      · have t1 : (e - 52).toNat = 0 := by omega
        have t2 : (-(e - 52)).toNat = (-e).toNat + 52 := by omega
        have t3 : e.toNat = 0 := by omega
        rw [t1, pow_zero, Nat.mul_one, t2, pow_add]
        rw [t3, pow_zero, Nat.mul_one] at hE
        calc 2 ^ 52 * d = d * 2 ^ 52 := by ring
          _ ≤ n * 2 ^ (-e).toNat * 2 ^ 52 := Nat.mul_le_mul_right _ hE
          _ = n * (2 ^ (-e).toNat * 2 ^ 52) := by ring

/-- The number `roundPos` returns is a multiple of the unit in the last place
at most half a unit away from the rational. -/
theorem roundPos_half_ulp (n : Nat) {d : Nat} (hd : 0 < d) :
    |roundPos n d - (n : ℚ) / (d : ℚ)| ≤
      (2 : ℚ) ^ (ulpExp n d).toNat / 2 ^ (-ulpExp n d).toNat / 2 := by
  unfold roundPos
  simp only []
  generalize (ulpExp n d).toNat = a
  generalize (-ulpExp n d).toNat = b
  have hD : 0 < d * 2 ^ a := by positivity
  obtain ⟨e1, e2⟩ := roundHalfEven_error (n := n * 2 ^ b) hD
  generalize roundHalfEven (n * 2 ^ b) (d * 2 ^ a) = m at e1 e2 ⊢
  rw [Rat.mkRat_eq_div]
  have hdq : (0 : ℚ) < (d : ℚ) := by exact_mod_cast hd
  have hP : (0 : ℚ) < (2 : ℚ) ^ a := by positivity
  have hQ : (0 : ℚ) < (2 : ℚ) ^ b := by positivity
  have e1q : 2 * ((d : ℚ) * 2 ^ a * m) ≤ 2 * ((n : ℚ) * 2 ^ b) + (d : ℚ) * 2 ^ a := by
    exact_mod_cast e1
  have e2q : 2 * ((n : ℚ) * 2 ^ b) ≤ 2 * ((d : ℚ) * 2 ^ a * m) + (d : ℚ) * 2 ^ a := by
    exact_mod_cast e2
  push_cast
  generalize (2 : ℚ) ^ a = P at hP e1q e2q
  generalize (2 : ℚ) ^ b = Q at hQ e1q e2q
  have key : (m : ℚ) * P / Q - (n : ℚ) / (d : ℚ) =
      (2 * ((d : ℚ) * P * m) - 2 * ((n : ℚ) * Q)) / (2 * Q * d) := by
    field_simp
    ring
  have hden : (0 : ℚ) < 2 * Q * d := by positivity
  have hhalf : P / Q / 2 = (d : ℚ) * P / (2 * Q * d) := by
    field_simp
    ring
  rw [key, hhalf, abs_le]
  constructor
  · rw [neg_div', div_le_div_iff_of_pos_right hden]
    linarith
  · rw [div_le_div_iff_of_pos_right hden]
    linarith

/-- The rounding error of a positive rational that is at most `B`, for a
bound `B` in the normal range: at most `B / 2^53`. -/
theorem roundPos_error {n d : Nat} (hn : 0 < n) (hd : 0 < d) {B : ℚ}
    (hB : (n : ℚ) / (d : ℚ) ≤ B) (hB0 : 1 / 2 ^ 1022 ≤ B) :
    |roundPos n d - (n : ℚ) / (d : ℚ)| ≤ B / 2 ^ 53 := by
  have hsmall := ulpExp_small hn hd
  have hdist := roundPos_half_ulp n hd
  generalize (ulpExp n d).toNat = a at hsmall hdist
  generalize (-ulpExp n d).toNat = b at hsmall hdist
  have hdq : (0 : ℚ) < (d : ℚ) := by exact_mod_cast hd
  have hQ : (0 : ℚ) < (2 : ℚ) ^ b := by positivity
  have hulp : (2 : ℚ) ^ a / 2 ^ b ≤ B / 2 ^ 52 := by
    rcases hsmall with h | ⟨ha, hb⟩
    · have hq : (2 : ℚ) ^ 52 * 2 ^ a * d ≤ (n : ℚ) * 2 ^ b := by exact_mod_cast h
      have : (2 : ℚ) ^ a / 2 ^ b ≤ (n : ℚ) / (d : ℚ) / 2 ^ 52 := by
        rw [div_le_iff₀ hQ, div_div, div_mul_eq_mul_div, le_div_iff₀ (by positivity)]
        linarith
      exact le_trans this (div_le_div_of_nonneg_right hB (by positivity))
    · rw [ha, hb, pow_zero]
      have : (1 : ℚ) / 2 ^ 1074 = 1 / 2 ^ 1022 / 2 ^ 52 := by norm_num
      rw [this]
      exact div_le_div_of_nonneg_right hB0 (by positivity)
  calc |roundPos n d - (n : ℚ) / (d : ℚ)|
      ≤ (2 : ℚ) ^ a / 2 ^ b / 2 := hdist
    _ ≤ B / 2 ^ 52 / 2 := div_le_div_of_nonneg_right hulp (by norm_num)
    _ = B / 2 ^ 53 := by rw [div_div]; norm_num

/-- The rounding error of a rational from 0 to `B`, for a bound `B` in the
normal range: at most `B / 2^53`. -/
theorem f64round_error {q B : ℚ} (h0 : 0 ≤ q) (hB : q ≤ B) (hB0 : 1 / 2 ^ 1022 ≤ B) :
    |f64round q - q| ≤ B / 2 ^ 53 := by
  unfold f64round
  split_ifs with h1 h2
  · rw [h1, sub_zero, abs_zero]
    have : (0 : ℚ) ≤ 1 / 2 ^ 1022 := by positivity
    exact div_nonneg (le_trans this hB0) (by positivity)
  · exact absurd h0 (not_le.2 h2)
  · have hq : 0 < q := lt_of_le_of_ne h0 (Ne.symm h1)
    have hn : 0 < q.num.natAbs := Int.natAbs_pos.2 (ne_of_gt (Rat.num_pos.2 hq))
    have heq := rat_eq_natAbs_div hq
    have := roundPos_error hn q.den_pos (B := B) (by rw [← heq]; exact hB) hB0
    rw [← heq] at this
    exact this

theorem lev_le_max {α : Type} [DecidableEq α] (a : List α) :
    ∀ b, lev a b ≤ Max.max a.length b.length := by
  induction a with
  | nil => intro b; simp [lev_nil_left]
  | cons x xs ih =>
    intro b
    cases b with
    | nil => simp [lev_nil_right]
    | cons y ys =>
      have := ih ys
      rw [lev_cons_cons]
      simp only [List.length_cons]
      split_ifs <;> omega

theorem levenshteinDistance_le_max (a b : GoString) :
    levenshteinDistance a b ≤ Max.max a.length b.length := by
  rw [levenshteinDistance_eq_lev]
  simpa using lev_le_max a.reverse b.reverse

/-- The score of a distance and two lengths below `2^53` is the `float64`
nearest to a number of hundredths that is at most one hundredth away from the
score in exact arithmetic. -/
theorem scoreOfCounts_close (d l1 l2 : Nat) (h1 : l1 < 2 ^ 53) (h2 : l2 < 2 ^ 53)
    (hd : d ≤ Max.max l1 l2) (hm : 0 < Max.max l1 l2) :
    ∃ k : Int, scoreOfCounts d l1 l2 = some (f64round ((k : ℚ) / 100)) ∧
      |(k : ℚ) / 100 -
        mathRound (Max.max 0 (Min.min 100
          ((1 - (d : ℚ) / ((Max.max l1 l2 : Nat) : ℚ)) * 100)) * 100) / 100| ≤ 1 / 100 := by
  have hmlt : Max.max l1 l2 < 2 ^ 53 := max_lt h1 h2
  have hdlt : d < 2 ^ 53 := lt_of_le_of_lt hd hmlt
  have hnorm : (1 : ℚ) / 2 ^ 1022 ≤ 1 := by
    rw [div_le_one (by positivity)]
    exact one_le_pow₀ (by norm_num)
  -- the lengths and the distance are converted without error
  have hmax : mathMax (f64ofInt l1) (f64ofInt l2) = ((Max.max l1 l2 : Nat) : ℚ) := by
    unfold mathMax f64ofInt
    rw [f64round_nat h1, f64round_nat h2, Nat.cast_max]
    rcases lt_or_le (l1 : ℚ) (l2 : ℚ) with h | h
    · rw [if_pos h, max_eq_right (le_of_lt h)]
    · rw [if_neg (not_lt.2 h), max_eq_left h]
  have hdq : f64ofInt d = (d : ℚ) := f64round_nat hdlt
  generalize Max.max l1 l2 = m at hd hm hmlt hmax
  have hmq : (0 : ℚ) < (m : ℚ) := by exact_mod_cast hm
  have hmne : ¬ ((m : ℚ) = 0) := ne_of_gt hmq
  -- the exact ratio and similarity
  have hr0 : (0 : ℚ) ≤ (d : ℚ) / (m : ℚ) := by positivity
  have hr1 : (d : ℚ) / (m : ℚ) ≤ 1 := by
    rw [div_le_one hmq]; exact_mod_cast hd
  -- the quotient
  have a0 := f64round_nonneg hr0
  have a1 : f64round ((d : ℚ) / (m : ℚ)) ≤ 1 := by
    have := f64round_le_nat (q := (d : ℚ) / (m : ℚ)) (c := 1) (by push_cast; exact hr1)
      (by norm_num)
    simpa using this
  have ae := f64round_error hr0 hr1 hnorm
  generalize hq1 : f64round ((d : ℚ) / (m : ℚ)) = q1 at a0 a1 ae
  -- the difference
  have hb0 : (0 : ℚ) ≤ 1 - q1 := by linarith
  have hb1 : 1 - q1 ≤ 1 := by linarith
  have b0 := f64round_nonneg hb0
  have b1 : f64round (1 - q1) ≤ 1 := by
    have := f64round_le_nat (q := 1 - q1) (c := 1) (by push_cast; exact hb1) (by norm_num)
    simpa using this
  have be := f64round_error hb0 hb1 hnorm
  generalize hs1 : f64round (1 - q1) = s1 at b0 b1 be
  -- the first product
  have hc0 : (0 : ℚ) ≤ s1 * 100 := by positivity
  have hc1 : s1 * 100 ≤ 100 := by linarith
  have c0 := f64round_nonneg hc0
  have c1 : f64round (s1 * 100) ≤ 100 := by
    have := f64round_le_nat (q := s1 * 100) (c := 100) (by push_cast; exact hc1)
      (by norm_num)
    simpa using this
  have ce := f64round_error hc0 hc1 (le_trans hnorm (by norm_num))
  generalize hs2 : f64round (s1 * 100) = s2 at c0 c1 ce
  -- the second product
  have hd0 : (0 : ℚ) ≤ s2 * 100 := by positivity
  have hd1 : s2 * 100 ≤ 10000 := by linarith
  have d0 := f64round_nonneg hd0
  have de := f64round_error hd0 hd1 (le_trans hnorm (by norm_num))
  generalize hs3 : f64round (s2 * 100) = s3 at d0 de
  -- the exact similarity needs no clamp
  have hx0 : (0 : ℚ) ≤ (1 - (d : ℚ) / (m : ℚ)) * 100 := by nlinarith
  have hx1 : (1 - (d : ℚ) / (m : ℚ)) * 100 ≤ 100 := by nlinarith
  have hclamp : Max.max 0 (Min.min 100 ((1 - (d : ℚ) / (m : ℚ)) * 100)) =
      (1 - (d : ℚ) / (m : ℚ)) * 100 := by
    rw [min_eq_right hx1, max_eq_right hx0]
  rw [hclamp]
  generalize hX : (1 - (d : ℚ) / (m : ℚ)) * 100 * 100 = X
  have hX0 : 0 ≤ X := by rw [← hX]; positivity
  -- the accumulated error is far below one
  have htot : |s3 - X| ≤ 40000 / 2 ^ 53 := by
    rw [abs_le] at ae be ce de ⊢
    rw [← hX]
    constructor <;> linarith [ae.1, ae.2, be.1, be.2, ce.1, ce.2, de.1, de.2]
  have hlt : |s3 - X| < 1 := lt_of_le_of_lt htot (by norm_num)
  rw [abs_lt] at hlt
  -- the two roundings are at most one apart
  have k1 : ⌊s3 + 1 / 2⌋ ≤ ⌊X + 1 / 2⌋ + 1 := by
    rw [← Int.floor_add_one]
    exact Int.floor_le_floor (by linarith)
  have k2 : ⌊X + 1 / 2⌋ ≤ ⌊s3 + 1 / 2⌋ + 1 := by
    rw [← Int.floor_add_one]
    exact Int.floor_le_floor (by linarith)
  refine ⟨⌊s3 + 1 / 2⌋, ?_, ?_⟩
  · unfold scoreOfCounts
    have hcl : (if s2 < 0 then 0 else if s2 > 100 then 100 else s2) = s2 := by
      rw [if_neg (not_lt.2 c0), if_neg (not_lt.2 c1)]
    simp only [hmax, if_neg hmne, f64div, hdq, f64sub, f64mul, hq1, hs1, hs2, hcl, hs3]
    norm_num only [if_false]
    unfold mathRound
    rw [if_pos d0]
  · unfold mathRound
    rw [if_pos hX0, ← sub_div, abs_div]
    have h100 : |(100 : ℚ)| = 100 := abs_of_pos (by norm_num)
    rw [h100, div_le_div_iff_of_pos_right (by norm_num)]
    have : |(⌊s3 + 1 / 2⌋ : ℚ) - (⌊X + 1 / 2⌋ : ℚ)| ≤ 1 := by
      rw [abs_le]
      constructor
      · have : (⌊X + 1 / 2⌋ : ℚ) ≤ (⌊s3 + 1 / 2⌋ : ℚ) + 1 := by exact_mod_cast k2
        linarith
      · have : (⌊s3 + 1 / 2⌋ : ℚ) ≤ (⌊X + 1 / 2⌋ : ℚ) + 1 := by exact_mod_cast k1
        linarith
    exact this

/-- For normalized strings shorter than `2^53` bytes `calculateScore` is the
`float64` nearest to a number of hundredths that is at most one hundredth
away from the score of the specification. -/
theorem calculateScore_close (tbl : Nat → Nat) (a b : GoString)
    (h1 : (normalizeText tbl a).length < 2 ^ 53)
    (h2 : (normalizeText tbl b).length < 2 ^ 53) :
    ∃ k : Int, calculateScore tbl a b = some (f64round ((k : ℚ) / 100)) ∧
      |(k : ℚ) / 100 - scoreSpec tbl a b| ≤ 1 / 100 := by
  rw [calculateScore_eq]
  unfold scoreSpec
  simp only []
  have hd := levenshteinDistance_le_max (normalizeText tbl a) (normalizeText tbl b)
  generalize levenshteinDistance (normalizeText tbl a) (normalizeText tbl b) = d at hd
  generalize (normalizeText tbl a).length = l1 at h1 h2 hd
  generalize (normalizeText tbl b).length = l2 at h2 hd
  by_cases hm : Max.max l1 l2 = 0
  · have hl1 : l1 = 0 := by
      have := le_max_left l1 l2; omega
    have hl2 : l2 = 0 := by
      have := le_max_right l1 l2; omega
    subst hl1 hl2
    refine ⟨0, ?_, ?_⟩
    · simp [scoreOfCounts, mathMax, f64ofInt, f64round_zero]
    · simp
  · rw [if_neg hm]
    exact scoreOfCounts_close d l1 l2 h1 h2 hd (Nat.pos_of_ne_zero hm)

end RoundingError

/-! ## UTF-8: decoding what was encoded -/

section Utf8

theorem encodeRune_ne_nil (r : Nat) : encodeRune r ≠ [] := by
  unfold encodeRune
  split_ifs <;> simp

theorem encodeRune_length_pos (r : Nat) : 0 < (encodeRune r).length :=
  List.length_pos.2 (encodeRune_ne_nil r)

/-- Decoding reads back the rune that was encoded, and its width. -/
theorem decodeRune_encodeRune {r : Nat} (hr : ValidRune r) (t : GoString) :
    decodeRune (encodeRune r ++ t) = (r, (encodeRune r).length) := by
  unfold ValidRune at hr
  unfold encodeRune
  by_cases h1 : r < 0x80
  · simp [h1, decodeRune]
  · rw [if_neg h1]
    by_cases h2 : r < 0x800
    · rw [if_pos h2]
      have a1 : ¬ (0xC0 + r / 64 < 0x80) := by omega
      have a2 : 0xC2 ≤ 0xC0 + r / 64 ∧ 0xC0 + r / 64 ≤ 0xDF := by omega
      have a3 : isCont (0x80 + r % 64) = true := by simp [isCont]; omega
      simp only [List.cons_append, List.nil_append, decodeRune, decodeRune2, if_neg a1,
        if_pos a2, a3, if_true, List.length_cons, List.length_nil]
      rw [Prod.mk.injEq]
      constructor <;> omega
    · rw [if_neg h2]
      have h3 : ¬ (0xD800 ≤ r ∧ r ≤ 0xDFFF ∨ 0x10FFFF < r) := by omega
      rw [if_neg h3]
      by_cases h4 : r < 0x10000
      · rw [if_pos h4]
        have a1 : ¬ (0xE0 + r / 4096 < 0x80) := by omega
        have a2 : ¬ (0xC2 ≤ 0xE0 + r / 4096 ∧ 0xE0 + r / 4096 ≤ 0xDF) := by omega
        have a3 : 0xE0 ≤ 0xE0 + r / 4096 ∧ 0xE0 + r / 4096 ≤ 0xEF := by omega
        have a4 : isCont (0x80 + r % 64) = true := by simp [isCont]; omega
        have a5 : (if 0xE0 + r / 4096 = 0xE0 then 0xA0 else 0x80) ≤ 0x80 + r / 64 % 64 ∧
            0x80 + r / 64 % 64 ≤ (if 0xE0 + r / 4096 = 0xED then 0x9F else 0xBF) ∧
            isCont (0x80 + r % 64) = true := by
          refine ⟨?_, ?_, a4⟩
          · split_ifs <;> omega
          · split_ifs <;> omega
        simp only [List.cons_append, List.nil_append, decodeRune, decodeRune3, if_neg a1,
          if_neg a2, if_pos a3, if_pos a5, List.length_cons, List.length_nil]
        rw [Prod.mk.injEq]
        constructor <;> omega
      · rw [if_neg h4]
        have a1 : ¬ (0xF0 + r / 262144 < 0x80) := by omega
        have a2 : ¬ (0xC2 ≤ 0xF0 + r / 262144 ∧ 0xF0 + r / 262144 ≤ 0xDF) := by omega
        have a3 : ¬ (0xE0 ≤ 0xF0 + r / 262144 ∧ 0xF0 + r / 262144 ≤ 0xEF) := by omega
        have a4 : 0xF0 ≤ 0xF0 + r / 262144 ∧ 0xF0 + r / 262144 ≤ 0xF4 := by omega
        have a5 : (if 0xF0 + r / 262144 = 0xF0 then 0x90 else 0x80) ≤ 0x80 + r / 4096 % 64 ∧
            0x80 + r / 4096 % 64 ≤ (if 0xF0 + r / 262144 = 0xF4 then 0x8F else 0xBF) ∧
            isCont (0x80 + r / 64 % 64) = true ∧ isCont (0x80 + r % 64) = true := by
          refine ⟨?_, ?_, ?_, ?_⟩
          · split_ifs <;> omega
          · split_ifs <;> omega
          · simp [isCont]; omega
          · simp [isCont]; omega
        simp only [List.cons_append, List.nil_append, decodeRune, decodeRune4, if_neg a1,
          if_neg a2, if_neg a3, if_pos a4, if_pos a5, List.length_cons, List.length_nil]
        rw [Prod.mk.injEq]
        constructor <;> omega

theorem validRune_runeError : ValidRune runeError := by
  unfold ValidRune runeError; omega

theorem decodeRune2_valid (b0 : Nat) (h : 0xC2 ≤ b0 ∧ b0 ≤ 0xDF) (s : GoString) :
    ValidRune (decodeRune2 b0 s).1 := by
  have hE := validRune_runeError
  match s with
  | [] => exact hE
  | b1 :: t =>
    unfold decodeRune2
    simp only [isCont, decide_eq_true_eq]
    split_ifs
    · show ValidRune ((b0 - 0xC0) * 64 + (b1 - 0x80))
      unfold ValidRune
      omega
    · exact hE

theorem decodeRune3_valid (b0 : Nat) (h : 0xE0 ≤ b0 ∧ b0 ≤ 0xEF) (s : GoString) :
    ValidRune (decodeRune3 b0 s).1 := by
  have hE := validRune_runeError
  match s with
  | [] => exact hE
  | [_] => exact hE
  | b1 :: b2 :: t =>
    by_cases hc : (if b0 = 0xE0 then 0xA0 else 0x80) ≤ b1 ∧
        b1 ≤ (if b0 = 0xED then 0x9F else 0xBF) ∧ isCont b2 = true
    · simp only [decodeRune3, if_pos hc]
      simp only [isCont, decide_eq_true_eq] at hc
      unfold ValidRune
      split_ifs at hc <;> omega
    · simp only [decodeRune3, if_neg hc]
      exact hE

theorem decodeRune4_valid (b0 : Nat) (h : 0xF0 ≤ b0 ∧ b0 ≤ 0xF4) (s : GoString) :
    ValidRune (decodeRune4 b0 s).1 := by
  have hE := validRune_runeError
  match s with
  | [] => exact hE
  | [_] => exact hE
  | [_, _] => exact hE
  | b1 :: b2 :: b3 :: t =>
    by_cases hc : (if b0 = 0xF0 then 0x90 else 0x80) ≤ b1 ∧
        b1 ≤ (if b0 = 0xF4 then 0x8F else 0xBF) ∧ isCont b2 = true ∧ isCont b3 = true
    · simp only [decodeRune4, if_pos hc]
      simp only [isCont, decide_eq_true_eq] at hc
      unfold ValidRune
      split_ifs at hc <;> omega
    · simp only [decodeRune4, if_neg hc]
      exact hE

/-- Every rune the decoder returns is a scalar value. -/
theorem decodeRune_valid (s : GoString) : ValidRune (decodeRune s).1 := by
  match s with
  | [] => exact validRune_runeError
  | b0 :: t =>
    simp only [decodeRune]
    split_ifs with h1 h2 h3 h4
    · show ValidRune b0
      unfold ValidRune
      omega
    · exact decodeRune2_valid b0 h2 t
    · exact decodeRune3_valid b0 h3 t
    · exact decodeRune4_valid b0 h4 t
    · exact validRune_runeError

/-- An encoding is a first byte that is no continuation byte, then
continuation bytes only. -/
theorem encodeRune_shape (r : Nat) :
    ∃ b0 cs, encodeRune r = b0 :: cs ∧ (b0 < 0x80 ∨ 0xC0 ≤ b0) ∧
      ∀ c ∈ cs, 0x80 ≤ c ∧ c ≤ 0xBF := by
  unfold encodeRune
  split_ifs with h1 h2 h3 h4
  · exact ⟨_, _, rfl, Or.inl h1, by simp⟩
  · refine ⟨_, _, rfl, Or.inr (by omega), ?_⟩
    intro c hc
    simp only [List.mem_singleton] at hc
    omega
  · refine ⟨_, _, rfl, Or.inr (by omega), ?_⟩
    intro c hc
    simp only [List.mem_cons, List.mem_singleton, List.not_mem_nil, or_false] at hc
    omega
  · refine ⟨_, _, rfl, Or.inr (by omega), ?_⟩
    intro c hc
    simp only [List.mem_cons, List.mem_singleton, List.not_mem_nil, or_false] at hc
    omega
  · refine ⟨_, _, rfl, Or.inr (by omega), ?_⟩
    intro c hc
    simp only [List.mem_cons, List.mem_singleton, List.not_mem_nil, or_false] at hc
    omega

theorem encodeRune_injective {r w : Nat} (hr : ValidRune r) (hw : ValidRune w)
    (h : encodeRune r = encodeRune w) : r = w := by
  have h1 := decodeRune_encodeRune hr []
  have h2 := decodeRune_encodeRune hw []
  rw [h, h2] at h1
  exact (congrArg Prod.fst h1).symm

/-- Two encodings that end one string are the same encoding. -/
theorem encodeRune_suffix_unique {r w : Nat} {s : GoString} (hr : ValidRune r)
    (hw : ValidRune w) (h1 : encodeRune r <:+ s) (h2 : encodeRune w <:+ s) : r = w := by
  apply encodeRune_injective hr hw
  obtain ⟨b, cs, hb, hlead, hcont⟩ := encodeRune_shape r
  obtain ⟨b', cs', hb', hlead', hcont'⟩ := encodeRune_shape w
  rw [hb] at h1
  rw [hb'] at h2
  rw [hb, hb']
  rcases List.suffix_or_suffix_of_suffix h1 h2 with h | h
  · rcases List.suffix_cons_iff.1 h with h | h
    · exact h
    · have := hcont' b (h.subset (List.mem_cons_self _ _))
      omega
  · rcases List.suffix_cons_iff.1 h with h | h
    · exact h.symm
    · have := hcont b' (h.subset (List.mem_cons_self _ _))
      omega

theorem encodeRunes_nil : encodeRunes [] = [] := rfl

theorem encodeRunes_cons (r : Nat) (rs : List Nat) :
    encodeRunes (r :: rs) = encodeRune r ++ encodeRunes rs := by
  simp [encodeRunes]

theorem encodeRunes_append (rs ts : List Nat) :
    encodeRunes (rs ++ ts) = encodeRunes rs ++ encodeRunes ts := by
  simp [encodeRunes]

theorem encodeRunes_concat (rs : List Nat) (r : Nat) :
    encodeRunes (rs ++ [r]) = encodeRunes rs ++ encodeRune r := by
  simp [encodeRunes]

theorem length_le_encodeRunes (rs : List Nat) : rs.length ≤ (encodeRunes rs).length := by
  induction rs with
  | nil => simp [encodeRunes]
  | cons r rs ih =>
    rw [encodeRunes_cons, List.length_append, List.length_cons]
    have := encodeRune_length_pos r
    omega

/-- The runes of an encoded sequence of scalar values are that sequence. -/
theorem decodeRunesAux_encodeRunes :
    ∀ (rs : List Nat) (fuel : Nat), (∀ r ∈ rs, ValidRune r) → rs.length ≤ fuel →
      decodeRunesAux fuel (encodeRunes rs) = rs := by
  intro rs
  induction rs with
  | nil => intro fuel _ _; cases fuel <;> simp [encodeRunes, decodeRunesAux]
  | cons r rs ih =>
    intro fuel hv hf
    obtain ⟨fuel, rfl⟩ : ∃ k, fuel = k + 1 := ⟨fuel - 1, by simp at hf; omega⟩
    have hr : ValidRune r := hv r (List.mem_cons_self _ _)
    have hdec := decodeRune_encodeRune hr (encodeRunes rs)
    rw [encodeRunes_cons]
    obtain ⟨b, cs, hb, _, _⟩ := encodeRune_shape r
    have hcons : encodeRune r ++ encodeRunes rs = b :: (cs ++ encodeRunes rs) := by
      rw [hb]; rfl
    rw [hcons] at hdec ⊢
    rw [decodeRunesAux, hdec]
    simp only []
    rw [← hcons, List.drop_left]
    rw [ih fuel (fun x hx => hv x (List.mem_cons_of_mem _ hx)) (by simp at hf; omega)]

theorem decodeRunes_encodeRunes {rs : List Nat} (hv : ∀ r ∈ rs, ValidRune r) :
    decodeRunes (encodeRunes rs) = rs :=
  decodeRunesAux_encodeRunes rs _ hv (length_le_encodeRunes rs)

theorem decodeRunesAux_valid : ∀ (fuel : Nat) (s : GoString),
    ∀ r ∈ decodeRunesAux fuel s, ValidRune r := by
  intro fuel
  induction fuel with
  | zero => intro s r hr; simp [decodeRunesAux] at hr
  | succ fuel ih =>
    intro s r hr
    match s with
    | [] => simp [decodeRunesAux] at hr
    | b :: t =>
      rw [decodeRunesAux] at hr
      rcases List.mem_cons.1 hr with h | h
      · rw [h]; exact decodeRune_valid _
      · exact ih _ r h

end Utf8

/-! ## `normalizeText` on the runes of the string -/

section Normalize

theorem spaceRunes_valid : ∀ w ∈ spaceRunes, ValidRune w := by
  decide

theorem isSpace_iff (r : Nat) : isSpace r = true ↔ r ∈ spaceRunes := by
  simp [isSpace]

theorem isRegexSpace_isSpace {b : Nat} (h : isRegexSpace b = true) : isSpace b = true := by
  simp only [isRegexSpace, decide_eq_true_eq] at h
  rw [isSpace_iff]
  rcases h with h | h | h | h | h <;> subst h <;> decide

theorem trimLeftSpace_encodeRunes :
    ∀ (fuel : Nat) (rs : List Nat), (∀ r ∈ rs, ValidRune r) → rs.length ≤ fuel →
      trimLeftSpace fuel (encodeRunes rs) = encodeRunes (rs.dropWhile isSpace) := by
  intro fuel
  induction fuel with
  | zero =>
    intro rs _ hf
    have : rs = [] := List.length_eq_zero.1 (by omega)
    subst this
    rfl
  | succ fuel ih =>
    intro rs hv hf
    match rs with
    | [] => rfl
    | r :: rs =>
      have hr : ValidRune r := hv r (List.mem_cons_self _ _)
      have hdec := decodeRune_encodeRune hr (encodeRunes rs)
      rw [encodeRunes_cons, trimLeftSpace, hdec]
      simp only []
      by_cases hs : isSpace r = true
      · rw [if_pos hs, List.drop_left, List.dropWhile_cons_of_pos hs]
        exact ih rs (fun x hx => hv x (List.mem_cons_of_mem _ hx)) (by simp at hf; omega)
      · rw [if_neg hs, List.dropWhile_cons_of_neg hs, encodeRunes_cons]

theorem lastSpaceWidth_nil : lastSpaceWidth [] = 0 := by
  decide

theorem lastSpaceWidth_concat {r : Nat} (hr : ValidRune r) (pre : GoString) :
    lastSpaceWidth (pre ++ encodeRune r) =
      if isSpace r = true then (encodeRune r).length else 0 := by
  unfold lastSpaceWidth
  have hsuf : encodeRune r <:+ pre ++ encodeRune r := List.suffix_append _ _
  cases hfind : spaceRunes.find? (fun w => (encodeRune w).isSuffixOf (pre ++ encodeRune r)) with
  | none =>
    have hnone := List.find?_eq_none.1 hfind
    have hs : ¬ isSpace r = true := by
      intro hs
      have := hnone r ((isSpace_iff r).1 hs)
      simp only [List.isSuffixOf_iff_suffix] at this
      exact this hsuf
    simp [hs]
  | some w =>
    have hw : w ∈ spaceRunes := List.mem_of_find?_eq_some hfind
    have hp := List.find?_some hfind
    simp only [List.isSuffixOf_iff_suffix] at hp
    have : r = w := encodeRune_suffix_unique hr (spaceRunes_valid w hw) hsuf hp
    subst this
    simp [(isSpace_iff r).2 hw]

theorem trimRightSpace_encodeRunes :
    ∀ (fuel : Nat) (rs : List Nat), (∀ r ∈ rs, ValidRune r) → rs.length ≤ fuel →
      trimRightSpace fuel (encodeRunes rs) = encodeRunes (rs.rdropWhile isSpace) := by
  intro fuel
  induction fuel with
  | zero =>
    intro rs _ hf
    have : rs = [] := List.length_eq_zero.1 (by omega)
    subst this
    rfl
  | succ fuel ih =>
    intro rs hv hf
    rcases List.eq_nil_or_concat rs with h | ⟨init, r, h⟩
    · subst h
      rw [trimRightSpace, encodeRunes_nil, lastSpaceWidth_nil]
      simp [encodeRunes]
    · rw [List.concat_eq_append] at h
      subst h
      have hr : ValidRune r := hv r (by simp)
      rw [trimRightSpace, encodeRunes_concat, lastSpaceWidth_concat hr]
      by_cases hs : isSpace r = true
      · have hpos := encodeRune_length_pos r
        have hne : ¬ (encodeRune r).length = 0 := by omega
        rw [if_pos hs, if_neg hne, List.rdropWhile_concat_pos _ _ _ hs]
        have htake : (encodeRunes init ++ encodeRune r).take
            ((encodeRunes init ++ encodeRune r).length - (encodeRune r).length) =
            encodeRunes init := by
          rw [List.length_append, Nat.add_sub_cancel, List.take_left]
        rw [htake]
        exact ih init (fun x hx => hv x (by simp [hx])) (by simp at hf; omega)
      · rw [if_neg hs, if_pos rfl, List.rdropWhile_concat_neg _ _ _ hs, encodeRunes_concat]

theorem trimSpace_encodeRunes {rs : List Nat} (hv : ∀ r ∈ rs, ValidRune r) :
    trimSpace (encodeRunes rs) =
      encodeRunes ((rs.dropWhile isSpace).rdropWhile isSpace) := by
  unfold trimSpace
  have hlen := length_le_encodeRunes rs
  rw [trimLeftSpace_encodeRunes _ rs hv hlen]
  apply trimRightSpace_encodeRunes
  · intro r hr
    exact hv r ((List.dropWhile_sublist _).subset hr)
  · have := (List.dropWhile_sublist (l := rs) isSpace).length_le
    omega

theorem collapseAux_append_bytes (inRun : Bool) (rest : GoString) :
    ∀ (bs : GoString), bs ≠ [] → (∀ b ∈ bs, isRegexSpace b = false) →
      collapseAux inRun (bs ++ rest) = bs ++ collapseAux false rest := by
  intro bs
  induction bs generalizing inRun with
  | nil => intro h; exact absurd rfl h
  | cons b bs ih =>
    intro _ hb
    have hb0 : isRegexSpace b = false := hb b (List.mem_cons_self _ _)
    rw [List.cons_append, collapseAux]
    simp only [hb0, Bool.false_eq_true, if_false]
    by_cases hbs : bs = []
    · subst hbs; rfl
    · rw [ih false hbs (fun x hx => hb x (List.mem_cons_of_mem _ hx))]
      rfl

theorem encodeRune_bytes_ge {r : Nat} (h : 0x80 ≤ r) : ∀ b ∈ encodeRune r, 0x80 ≤ b := by
  intro b hb
  unfold encodeRune at hb
  split_ifs at hb <;>
    simp only [List.mem_cons, List.mem_singleton, List.not_mem_nil, or_false] at hb <;> omega

theorem encodeRune_ascii {r : Nat} (h : r < 0x80) : encodeRune r = [r] := by
  simp [encodeRune, h]

/-- Collapsing the runs of `\s` bytes of an encoded string collapses the runs
of `\s` runes. -/
theorem collapseAux_encodeRunes (rs : List Nat) :
    ∀ inRun, collapseAux inRun (encodeRunes rs) = encodeRunes (collapseAux inRun rs) := by
  induction rs with
  | nil => intro inRun; rfl
  | cons r rs ih =>
    intro inRun
    rw [encodeRunes_cons]
    by_cases hr : r < 0x80
    · rw [encodeRune_ascii hr, List.singleton_append, collapseAux, collapseAux]
      by_cases hs : isRegexSpace r = true
      · simp only [hs, if_true]
        cases inRun
        · simp only [Bool.false_eq_true, if_false]
          rw [ih true, encodeRunes_cons, encodeRune_ascii (by omega : 0x20 < 0x80)]
          rfl
        · simp only [if_true]
          exact ih true
      · have hs' : isRegexSpace r = false := by simpa using hs
        simp only [hs', Bool.false_eq_true, if_false]
        rw [ih false, encodeRunes_cons, encodeRune_ascii hr]
        rfl
    · have hge : ∀ b ∈ encodeRune r, isRegexSpace b = false := by
        intro b hb
        have := encodeRune_bytes_ge (by omega : 0x80 ≤ r) b hb
        simp only [isRegexSpace, decide_eq_false_iff_not]
        omega
      have hrs : isRegexSpace r = false := by
        simp only [isRegexSpace, decide_eq_false_iff_not]
        omega
      rw [collapseAux_append_bytes inRun _ _ (encodeRune_ne_nil r) hge, collapseAux]
      simp only [hrs, Bool.false_eq_true, if_false]
      rw [encodeRunes_cons, ih false]

theorem collapseSpaces_encodeRunes (rs : List Nat) :
    collapseSpaces (encodeRunes rs) = encodeRunes (collapseAux false rs) :=
  collapseAux_encodeRunes rs false

theorem encodeRunes_ascii {rs : List Nat} (h : ∀ r ∈ rs, r < 0x80) : encodeRunes rs = rs := by
  induction rs with
  | nil => rfl
  | cons r rs ih =>
    rw [encodeRunes_cons, encodeRune_ascii (h r (List.mem_cons_self _ _)),
      ih (fun x hx => h x (List.mem_cons_of_mem _ hx))]
    rfl

theorem ascii_of_encodeRunes_ascii {rs : List Nat}
    (h : ∀ b ∈ encodeRunes rs, b < 0x80) : ∀ r ∈ rs, r < 0x80 := by
  intro r hr
  by_contra hge
  obtain ⟨b, cs, hb, _, _⟩ := encodeRune_shape r
  have hmem : b ∈ encodeRune r := by rw [hb]; exact List.mem_cons_self _ _
  have h1 := encodeRune_bytes_ge (by omega : 0x80 ≤ r) b hmem
  have h2 : b ∈ encodeRunes rs := by
    unfold encodeRunes
    exact List.mem_flatMap.2 ⟨r, hr, hmem⟩
  have := h b h2
  omega

/-- The function `strings.ToLower` leaves an encoded string as it is when the case table leaves
its runes as they are. -/
theorem toLower_encodeRunes (tbl : Nat → Nat)
    (hascii : ∀ c, c < 0x80 → tbl c = asciiLower c) {rs : List Nat}
    (hv : ∀ r ∈ rs, ValidRune r) (hfix : ∀ r ∈ rs, tbl r = r) :
    toLower tbl (encodeRunes rs) = encodeRunes rs := by
  unfold toLower
  split_ifs with h
  · have hb : ∀ b ∈ encodeRunes rs, b < 0x80 := by
      intro b hb
      have := List.all_eq_true.1 h b hb
      simpa using this
    have hr := ascii_of_encodeRunes_ascii hb
    rw [encodeRunes_ascii hr]
    conv_rhs => rw [← List.map_id rs]
    apply List.map_congr_left
    intro r hmem
    rw [← hascii r (hr r hmem), hfix r hmem]
    rfl
  · unfold stringsMap
    rw [decodeRunes_encodeRunes hv]
    congr 1
    conv_rhs => rw [← List.map_id rs]
    apply List.map_congr_left
    intro r hmem
    rw [hfix r hmem]
    rfl

/-- What `strings.ToLower` returns is the encoding of scalar values that the
case table leaves as they are. -/
theorem toLower_repr (tbl : Nat → Nat) (hascii : ∀ c, c < 0x80 → tbl c = asciiLower c)
    (hidem : ∀ r, ValidRune r → tbl (tbl r) = tbl r)
    (hvalid : ∀ r, ValidRune r → ValidRune (tbl r)) (x : GoString) :
    ∃ ls, toLower tbl x = encodeRunes ls ∧ ∀ l ∈ ls, ValidRune l ∧ tbl l = l := by
  unfold toLower
  split_ifs with h
  · have hx : ∀ b ∈ x, b < 0x80 := by
      intro b hb
      have := List.all_eq_true.1 h b hb
      simpa using this
    have hlow : ∀ l ∈ x.map asciiLower, l < 0x80 := by
      intro l hl
      obtain ⟨c, hc, rfl⟩ := List.mem_map.1 hl
      have := hx c hc
      unfold asciiLower
      split_ifs <;> omega
    refine ⟨x.map asciiLower, (encodeRunes_ascii hlow).symm, ?_⟩
    intro l hl
    have hl80 := hlow l hl
    refine ⟨Or.inl (by omega), ?_⟩
    obtain ⟨c, hc, rfl⟩ := List.mem_map.1 hl
    rw [hascii _ hl80]
    unfold asciiLower
    split_ifs <;> omega
  · refine ⟨(decodeRunes x).map tbl, rfl, ?_⟩
    intro l hl
    obtain ⟨r, hr, rfl⟩ := List.mem_map.1 hl
    have hrv : ValidRune r := decodeRunesAux_valid _ _ r hr
    exact ⟨hvalid r hrv, hidem r hrv⟩

theorem collapseAux_mem : ∀ (l : List Nat) (inRun : Bool) (x : Nat),
    x ∈ collapseAux inRun l → x ∈ l ∨ x = 0x20 := by
  intro l
  induction l with
  | nil => intro inRun x hx; simp [collapseAux] at hx
  | cons b l ih =>
    intro inRun x hx
    rw [collapseAux] at hx
    split_ifs at hx with h1 h2
    · rcases ih true x hx with h | h
      · exact Or.inl (List.mem_cons_of_mem _ h)
      · exact Or.inr h
    · rcases List.mem_cons.1 hx with h | h
      · exact Or.inr h
      · rcases ih true x h with h | h
        · exact Or.inl (List.mem_cons_of_mem _ h)
        · exact Or.inr h
    · rcases List.mem_cons.1 hx with h | h
      · exact Or.inl (h ▸ List.mem_cons_self _ _)
      · rcases ih false x h with h | h
        · exact Or.inl (List.mem_cons_of_mem _ h)
        · exact Or.inr h

theorem collapseAux_idem : ∀ (l : List Nat) (inRun : Bool),
    collapseAux inRun (collapseAux inRun l) = collapseAux inRun l := by
  intro l
  induction l with
  | nil => intro inRun; rfl
  | cons b l ih =>
    intro inRun
    have h20 : isRegexSpace 0x20 = true := by decide
    by_cases hb : isRegexSpace b = true
    · cases inRun
      · have e : collapseAux false (b :: l) = 0x20 :: collapseAux true l := by
          rw [collapseAux]; simp [hb]
        rw [e, collapseAux]
        simp only [h20, if_true, Bool.false_eq_true, if_false]
        rw [ih true]
      · have e : collapseAux true (b :: l) = collapseAux true l := by
          rw [collapseAux]; simp [hb]
        rw [e, ih true]
    · have hb' : isRegexSpace b = false := by simpa using hb
      have e : collapseAux inRun (b :: l) = b :: collapseAux false l := by
        rw [collapseAux]; simp [hb']
      rw [e, collapseAux]
      simp only [hb', Bool.false_eq_true, if_false]
      rw [ih false]

theorem collapseAux_concat (z : Nat) (hz : isRegexSpace z = false) :
    ∀ (l : List Nat) (inRun : Bool),
      collapseAux inRun (l ++ [z]) = collapseAux inRun l ++ [z] := by
  intro l
  induction l with
  | nil =>
    intro inRun
    rw [List.nil_append, collapseAux]
    simp [hz, collapseAux]
  | cons b l ih =>
    intro inRun
    rw [List.cons_append, collapseAux, collapseAux]
    split_ifs <;> simp [ih]

theorem dropWhile_of_headOk {l : List Nat} (h : HeadOk l) : l.dropWhile isSpace = l := by
  cases l with
  | nil => rfl
  | cons x xs =>
    have := h x xs rfl
    simp [List.dropWhile, this]

theorem rdropWhile_of_lastOk {l : List Nat} (h : LastOk l) : l.rdropWhile isSpace = l := by
  rcases List.eq_nil_or_concat l with hl | ⟨i, z, hl⟩
  · subst hl; simp
  · rw [List.concat_eq_append] at hl
    subst hl
    have := h i z rfl
    exact List.rdropWhile_concat_neg _ _ _ (by simp [this])

theorem headOk_dropWhile (l : List Nat) : HeadOk (l.dropWhile isSpace) := by
  induction l with
  | nil => intro h t e; simp at e
  | cons x xs ih =>
    by_cases hx : isSpace x = true
    · rw [List.dropWhile_cons_of_pos hx]; exact ih
    · rw [List.dropWhile_cons_of_neg hx]
      intro h t e
      simp only [List.cons.injEq] at e
      rw [← e.1]
      simpa using hx

theorem lastOk_rdropWhile (l : List Nat) : LastOk (l.rdropWhile isSpace) := by
  induction l using List.reverseRecOn with
  | nil => intro i z e; simp at e
  | append_singleton i z ih =>
    by_cases hz : isSpace z = true
    · rw [List.rdropWhile_concat_pos _ _ _ hz]; exact ih
    · rw [List.rdropWhile_concat_neg _ _ _ hz]
      intro i2 z2 e
      have := List.append_inj_right' e rfl
      simp only [List.cons.injEq, and_true] at this
      rw [← this]
      simpa using hz

theorem headOk_of_prefix {t d : List Nat} (hd : HeadOk d) (hp : t <+: d) : HeadOk t := by
  intro h tl e
  obtain ⟨r, hr⟩ := hp
  subst e
  exact hd h (tl ++ r) (by rw [← hr]; rfl)

theorem headOk_collapse {l : List Nat} (h : HeadOk l) : HeadOk (collapseAux false l) := by
  cases l with
  | nil => intro x t e; simp [collapseAux] at e
  | cons b l =>
    have hb := h b l rfl
    have hb' : isRegexSpace b = false := by
      cases hrs : isRegexSpace b with
      | false => rfl
      | true => rw [isRegexSpace_isSpace hrs] at hb; exact absurd hb (by decide)
    intro x t e
    rw [collapseAux] at e
    simp only [hb', Bool.false_eq_true, if_false, List.cons.injEq] at e
    rw [← e.1]; exact hb

theorem lastOk_collapse {l : List Nat} (h : LastOk l) : LastOk (collapseAux false l) := by
  rcases List.eq_nil_or_concat l with hl | ⟨i, z, hl⟩
  · subst hl; intro x t e; simp [collapseAux] at e
  · rw [List.concat_eq_append] at hl
    subst hl
    have hz := h i z rfl
    have hz' : isRegexSpace z = false := by
      cases hrs : isRegexSpace z with
      | false => rfl
      | true => rw [isRegexSpace_isSpace hrs] at hz; exact absurd hz (by decide)
    rw [collapseAux_concat z hz']
    intro i2 z2 e
    have := List.append_inj_right' e rfl
    simp only [List.cons.injEq, and_true] at this
    rw [← this]; exact hz

/-- Trimming and collapsing a trimmed and collapsed list of runes changes
nothing. -/
theorem normalizeRunes_idem (ls : List Nat) :
    normalizeRunes (normalizeRunes ls) = normalizeRunes ls := by
  unfold normalizeRunes
  have h1 : HeadOk ((ls.dropWhile isSpace).rdropWhile isSpace) :=
    headOk_of_prefix (headOk_dropWhile ls) (List.rdropWhile_prefix _ _)
  have h2 : LastOk ((ls.dropWhile isSpace).rdropWhile isSpace) := lastOk_rdropWhile _
  rw [dropWhile_of_headOk (headOk_collapse h1), rdropWhile_of_lastOk (lastOk_collapse h2)]
  exact collapseAux_idem _ false

theorem normalizeRunes_mem (ls : List Nat) :
    ∀ x ∈ normalizeRunes ls, x ∈ ls ∨ x = 0x20 := by
  intro x hx
  rcases collapseAux_mem _ _ x hx with h | h
  · left
    exact (List.dropWhile_sublist _).subset ((List.rdropWhile_prefix _ _).subset h)
  · exact Or.inr h

/-- The string `normalizeText` returns is the encoding of the trimmed and
collapsed runes of the lowered string, scalar values that the case table
leaves as they are. -/
theorem normalizeText_repr (tbl : Nat → Nat) (hascii : ∀ c, c < 0x80 → tbl c = asciiLower c)
    (hidem : ∀ r, ValidRune r → tbl (tbl r) = tbl r)
    (hvalid : ∀ r, ValidRune r → ValidRune (tbl r)) (x : GoString) :
    ∃ ls, normalizeText tbl x = encodeRunes (normalizeRunes ls) ∧
      ∀ l ∈ ls, ValidRune l ∧ tbl l = l := by
  obtain ⟨ls, hls, hprop⟩ := toLower_repr tbl hascii hidem hvalid x
  refine ⟨ls, ?_, hprop⟩
  unfold normalizeText
  simp only []
  rw [hls, trimSpace_encodeRunes (fun r hr => (hprop r hr).1), collapseSpaces_encodeRunes]
  rfl

theorem normalizeText_encodeRunes (tbl : Nat → Nat)
    (hascii : ∀ c, c < 0x80 → tbl c = asciiLower c) {rs : List Nat}
    (hprop : ∀ r ∈ rs, ValidRune r ∧ tbl r = r) :
    normalizeText tbl (encodeRunes rs) = encodeRunes (normalizeRunes rs) := by
  unfold normalizeText
  simp only []
  rw [toLower_encodeRunes tbl hascii (fun r hr => (hprop r hr).1) (fun r hr => (hprop r hr).2),
    trimSpace_encodeRunes (fun r hr => (hprop r hr).1), collapseSpaces_encodeRunes]
  rfl

theorem normalizeText_idem (tbl : Nat → Nat) (hascii : ∀ c, c < 0x80 → tbl c = asciiLower c)
    (hidem : ∀ r, ValidRune r → tbl (tbl r) = tbl r)
    (hvalid : ∀ r, ValidRune r → ValidRune (tbl r)) (x : GoString) :
    normalizeText tbl (normalizeText tbl x) = normalizeText tbl x := by
  obtain ⟨ls, hls, hprop⟩ := normalizeText_repr tbl hascii hidem hvalid x
  have h20 : ValidRune 0x20 ∧ tbl 0x20 = 0x20 := by
    refine ⟨Or.inl (by omega), ?_⟩
    rw [hascii 0x20 (by omega)]
    rfl
  have hn : ∀ r ∈ normalizeRunes ls, ValidRune r ∧ tbl r = r := by
    intro r hr
    rcases normalizeRunes_mem ls r hr with h | h
    · exact hprop r h
    · rw [h]; exact h20
  rw [hls, normalizeText_encodeRunes tbl hascii hn, normalizeRunes_idem]

/-- What does hold of the string `normalizeText` returns: it has no byte
`A`..`Z`, `strings.TrimSpace` removes nothing from it, and the pattern `\s+`
matches nothing in it but single spaces. -/
theorem normalizeText_normal (tbl : Nat → Nat)
    (hascii : ∀ c, c < 0x80 → tbl c = asciiLower c)
    (hidem : ∀ r, ValidRune r → tbl (tbl r) = tbl r)
    (hvalid : ∀ r, ValidRune r → ValidRune (tbl r)) (x : GoString) :
    (∀ b ∈ normalizeText tbl x, ¬ (0x41 ≤ b ∧ b ≤ 0x5A)) ∧
      trimSpace (normalizeText tbl x) = normalizeText tbl x ∧
      collapseSpaces (normalizeText tbl x) = normalizeText tbl x := by
  obtain ⟨ls, hls, hprop⟩ := normalizeText_repr tbl hascii hidem hvalid x
  have h20 : ValidRune 0x20 ∧ tbl 0x20 = 0x20 := by
    refine ⟨Or.inl (by omega), ?_⟩
    rw [hascii 0x20 (by omega)]
    rfl
  have hn : ∀ r ∈ normalizeRunes ls, ValidRune r ∧ tbl r = r := by
    intro r hr
    rcases normalizeRunes_mem ls r hr with h | h
    · exact hprop r h
    · rw [h]; exact h20
  have h1 : HeadOk ((ls.dropWhile isSpace).rdropWhile isSpace) :=
    headOk_of_prefix (headOk_dropWhile ls) (List.rdropWhile_prefix _ _)
  have h2 : LastOk ((ls.dropWhile isSpace).rdropWhile isSpace) := lastOk_rdropWhile _
  rw [hls]
  refine ⟨?_, ?_, ?_⟩
  · intro b hb
    unfold encodeRunes at hb
    obtain ⟨r, hr, hbr⟩ := List.mem_flatMap.1 hb
    by_cases h80 : r < 0x80
    · rw [encodeRune_ascii h80, List.mem_singleton] at hbr
      subst hbr
      have hfix := (hn b hr).2
      rw [hascii b h80] at hfix
      unfold asciiLower at hfix
      split_ifs at hfix <;> omega
    · have := encodeRune_bytes_ge (by omega : 0x80 ≤ r) b hbr
      omega
  · rw [trimSpace_encodeRunes (fun r hr => (hn r hr).1)]
    unfold normalizeRunes
    rw [dropWhile_of_headOk (headOk_collapse h1), rdropWhile_of_lastOk (lastOk_collapse h2)]
  · rw [collapseSpaces_encodeRunes]
    unfold normalizeRunes
    rw [collapseAux_idem]

end Normalize

/-! ## The claims of the specification -/

/-- C1, as the code has it: `calculateScore` is the score of the specification
with every arithmetic step in `float64` instead of exact arithmetic: with
`r` and `t` the normalized strings, `maxLen = max(float64(len(r)),
float64(len(t)))` and `d = levenshteinDistance(r, t)`, it is 0 when `maxLen`
is 0 and otherwise `(1 - d/maxLen) * 100`, clamped to `[0, 100]`, times 100,
rounded to an integer with a tie away from zero, and divided by 100, where
the quotient, the difference, the products and the last division are each
rounded to `float64`.  When `r` and `t` are shorter than `2^53` bytes, that
is the `float64` nearest to a number of hundredths `k/100` at most `0.01`
away from the score in exact arithmetic.  For `"hello world"` and
`"helo world"` it is the `float64` nearest to 90.91, for two empty strings
it is 0. -/
theorem calculateScore_eq_spec_in_float64 (unicodeToLower : Nat → Nat)
    (reference transcribed : GoString) :
    calculateScore unicodeToLower reference transcribed =
        some (scoreSpecF64 unicodeToLower reference transcribed) ∧
      ((normalizeText unicodeToLower reference).length < 2 ^ 53 →
        (normalizeText unicodeToLower transcribed).length < 2 ^ 53 →
        ∃ k : Int,
          calculateScore unicodeToLower reference transcribed =
            some (f64round ((k : ℚ) / 100)) ∧
          |(k : ℚ) / 100 - scoreSpec unicodeToLower reference transcribed| ≤ 1 / 100) ∧
      calculateScore unicodeToLower helloWorld heloWorld = some (f64round (9091 / 100)) ∧
      scoreSpec unicodeToLower helloWorld heloWorld = 9091 / 100 ∧
      calculateScore unicodeToLower [] [] = some 0 := by
  refine ⟨calculateScore_eq_scoreSpecF64 _ _ _, calculateScore_close _ _ _, ?_, ?_, ?_⟩
  · rw [calculateScore_ascii unicodeToLower asciiLower (by decide) (by decide)]
    decide!
  · rw [scoreSpec_ascii unicodeToLower asciiLower (by decide) (by decide)]
    decide!
  · rw [calculateScore_ascii unicodeToLower asciiLower (by decide) (by decide)]
    decide!

/-- C1, witness: `"hello world"` and `"helo world"` are normalized to strings
shorter than `2^53` bytes, and their score is the `float64` nearest to a
number of hundredths at most `0.01` away from the score in exact
arithmetic. -/
theorem calculateScore_eq_spec_in_float64_witness :
    (normalizeText asciiLower helloWorld).length < 2 ^ 53 ∧
      (normalizeText asciiLower heloWorld).length < 2 ^ 53 ∧
      ∃ k : Int,
        calculateScore asciiLower helloWorld heloWorld = some (f64round ((k : ℚ) / 100)) ∧
        |(k : ℚ) / 100 - scoreSpec asciiLower helloWorld heloWorld| ≤ 1 / 100 :=
  have h1 : (normalizeText asciiLower helloWorld).length < 2 ^ 53 := by decide
  have h2 : (normalizeText asciiLower heloWorld).length < 2 ^ 53 := by decide
  ⟨h1, h2, (calculateScore_eq_spec_in_float64 asciiLower helloWorld heloWorld).2.1 h1 h2⟩

/-- C1, counterexample: for a reference of 160 letters `a` and the answer
`"a"` the distance is 159 and `maxLen` is 160, so the score of the
specification is `0.625` rounded half away from zero, `0.63`; `calculateScore`
returns the `float64` nearest to `0.62`, which is neither `0.63` nor the
`float64` nearest to it: `159/160` is rounded up to a `float64`, which leaves
`1 - 159/160` just below `0.00625`. -/
theorem calculateScore_misses_tie :
    (∀ unicodeToLower : Nat → Nat,
        scoreSpec unicodeToLower longReference shortAnswer = 63 / 100) ∧
      (∀ unicodeToLower : Nat → Nat,
        calculateScore unicodeToLower longReference shortAnswer =
          some (f64round (62 / 100))) ∧
      f64round (62 / 100) ≠ 63 / 100 ∧ f64round (62 / 100) ≠ f64round (63 / 100) := by
  have ha : longReference.all (fun c => decide (c < 0x80)) = true := by decide
  have hb : shortAnswer.all (fun c => decide (c < 0x80)) = true := by decide
  refine ⟨fun tbl => ?_, fun tbl => ?_, by decide!, by decide!⟩
  · rw [scoreSpec_ascii tbl asciiLower ha hb]
    decide!
  · rw [calculateScore_ascii tbl asciiLower ha hb]
    decide!

/-- C2: `levenshteinDistance(a, b)` is the classic Levenshtein distance of the
byte strings `a` and `b`: some script of that many single-character
insertions, deletions and substitutions transforms `a` into `b`, and no
script that transforms `a` into `b` is shorter. -/
theorem levenshteinDistance_is_edit_distance (a b : GoString) :
    EditPath a b (levenshteinDistance a b) ∧
      ∀ n, EditPath a b n → levenshteinDistance a b ≤ n :=
  ⟨levenshteinDistance_editPath a b, fun _ p => levenshteinDistance_le_editPath p⟩

/-- C3, as the code has it: for every string `x` whose normalized form is not
empty, `calculateScore(x, x)` is 100. -/
theorem calculateScore_self (unicodeToLower : Nat → Nat) (x : GoString)
    (hx : normalizeText unicodeToLower x ≠ []) :
    calculateScore unicodeToLower x x = some 100 := by
  rw [calculateScore_eq, levenshteinDistance_self]
  exact scoreOfCounts_zero (List.length_pos.2 hx)

/-- C3, witness: `"hello world"` normalizes to a nonempty string and scores 100
against itself. -/
theorem calculateScore_self_witness :
    normalizeText asciiLower helloWorld ≠ [] ∧
      calculateScore asciiLower helloWorld helloWorld = some 100 :=
  ⟨by decide, calculateScore_self asciiLower helloWorld (by decide)⟩

/-- C3, counterexample: the string `" "` is not empty, and `calculateScore`
of it against itself is 0, not 100, whatever the case table: it normalizes
to the empty string. -/
theorem calculateScore_self_blank :
    ([0x20] : GoString) ≠ [] ∧
      (∀ unicodeToLower : Nat → Nat, calculateScore unicodeToLower [0x20] [0x20] = some 0) ∧
      (∀ unicodeToLower : Nat → Nat,
        calculateScore unicodeToLower [0x20] [0x20] ≠ some 100) := by
  have h : ∀ unicodeToLower : Nat → Nat,
      calculateScore unicodeToLower [0x20] [0x20] = some 0 := by
    intro tbl
    rw [calculateScore_eq]
    have hn : normalizeText tbl [0x20] = [] := rfl
    rw [hn]
    simp [scoreOfCounts, mathMax, f64ofInt, f64round_zero]
  refine ⟨by decide, h, fun tbl => ?_⟩
  rw [h tbl]
  norm_num

/-- C4: for every pair of strings, of any length and content, `calculateScore`
returns a finite number (no division by zero occurs), and that number is at
least 0 and at most 100. -/
theorem calculateScore_defined_in_range (unicodeToLower : Nat → Nat)
    (reference transcribed : GoString) :
    ∃ score, calculateScore unicodeToLower reference transcribed = some score ∧
      0 ≤ score ∧ score ≤ 100 := by
  rw [calculateScore_eq]
  exact scoreOfCounts_bounds _ _ _

/-- C5, as the code has it: when the job starts, the first `n` polls
(`n + 1 ≤ maxRetries`) report `QUEUED` or `IN_PROGRESS`, the next poll reports
`COMPLETED` with a transcript URI and the fetch of that URI succeeds, then
`transcribeAudio` returns the fetched text after exactly `n + 1` sleeps (one
before every poll), and deletes the job exactly once. -/
theorem transcribeAudio_completed (svc : Service) (n : Nat) (job : TranscriptionJob)
    (uri : String) (text : GoString) (hstart : svc.startJob = none)
    (hn : n + 1 ≤ maxRetries)
    (hwait : ∀ k, k < n → ∃ j, svc.getJob k = Outcome.ok j ∧ j.status.nonTerminal)
    (hjob : svc.getJob n = Outcome.ok job) (hst : job.status = JobStatus.completed)
    (huri : job.transcriptFileUri = some uri)
    (hfetch : svc.fetchTranscript uri = Outcome.ok text) :
    (transcribeAudio svc).1 = Outcome.ok text ∧
      (transcribeAudio svc).2.count Event.sleep = n + 1 ∧
      (transcribeAudio svc).2.count Event.deleteJob = 1 := by
  rw [transcribeAudio_completed_log svc n hstart hn hwait hjob hst huri hfetch]
  refine ⟨rfl, ?_, ?_⟩
  · simp only [List.count_append, count_waitRounds]
    simp [waitRound, List.count_cons]
  · simp only [List.count_append, count_waitRounds]
    simp [waitRound, List.count_cons]

/-- C5, witness: the status sequence `[InProgress, InProgress, Completed]`
(`n = 2`) returns the transcript after 3 sleeps with one deletion. -/
theorem transcribeAudio_completed_witness :
    (transcribeAudio completesAtThirdPoll).1 = Outcome.ok sampleTranscript ∧
      (transcribeAudio completesAtThirdPoll).2.count Event.sleep = 2 + 1 ∧
      (transcribeAudio completesAtThirdPoll).2.count Event.deleteJob = 1 :=
  transcribeAudio_completed completesAtThirdPoll 2
    ⟨JobStatus.completed, some "https://transcripts/job.json", none⟩
    "https://transcripts/job.json" sampleTranscript rfl (by decide)
    (fun k hk => ⟨⟨JobStatus.inProgress, none, none⟩, by
      simp [completesAtThirdPoll, hk], Or.inr rfl⟩)
    rfl rfl rfl rfl

/-- C5, counterexample: for the status sequence `[InProgress, InProgress,
Completed]` with a transcript that is fetched, `transcribeAudio` returns the
transcript and deletes the job once, but it has slept 3 times, not 2: the
sleep comes before every poll, the third one included. -/
theorem transcribeAudio_sleeps_before_every_poll :
    completesAtThirdPoll.getJob 0 = Outcome.ok ⟨JobStatus.inProgress, none, none⟩ ∧
      completesAtThirdPoll.getJob 1 = Outcome.ok ⟨JobStatus.inProgress, none, none⟩ ∧
      completesAtThirdPoll.getJob 2 =
        Outcome.ok ⟨JobStatus.completed, some "https://transcripts/job.json", none⟩ ∧
      (transcribeAudio completesAtThirdPoll).1 = Outcome.ok sampleTranscript ∧
      (transcribeAudio completesAtThirdPoll).2.count Event.deleteJob = 1 ∧
      (transcribeAudio completesAtThirdPoll).2.count Event.sleep = 3 ∧
      ¬ (transcribeAudio completesAtThirdPoll).2.count Event.sleep = 2 := by
  decide

/-- C6: when the job starts and every one of the `maxRetries` (60) polls
succeeds and reports `QUEUED` or `IN_PROGRESS`, `transcribeAudio` polls
exactly `maxRetries` times, fails with the timed-out error and never deletes
the job. -/
theorem transcribeAudio_timeout (svc : Service) (hstart : svc.startJob = none)
    (hwait : ∀ k, k < maxRetries →
      ∃ j, svc.getJob k = Outcome.ok j ∧ j.status.nonTerminal) :
    (transcribeAudio svc).1 = Outcome.error "transcription job timed out" ∧
      (transcribeAudio svc).2.count Event.getJob = maxRetries ∧
      (transcribeAudio svc).2.count Event.deleteJob = 0 := by
  rw [transcribeAudio_timeout_log svc hstart hwait]
  refine ⟨rfl, ?_, ?_⟩
  · simp only [List.count_append, count_waitRounds]
    simp [waitRound, List.count_cons]
  · simp only [List.count_append, count_waitRounds]
    simp [waitRound, List.count_cons]

/-- C6, witness: a job that is `IN_PROGRESS` at every poll is polled 60 times,
times out and is not deleted. -/
theorem transcribeAudio_timeout_witness :
    (transcribeAudio neverCompletes).1 = Outcome.error "transcription job timed out" ∧
      (transcribeAudio neverCompletes).2.count Event.getJob = maxRetries ∧
      (transcribeAudio neverCompletes).2.count Event.deleteJob = 0 :=
  transcribeAudio_timeout neverCompletes rfl
    (fun _ _ => ⟨⟨JobStatus.inProgress, none, none⟩, rfl, Or.inr rfl⟩)

/-- C7, at the failing inputs: `normalizeText` returns `"a \v b"` unchanged,
whatever the case table, although the vertical tab is white space (for
`unicode.IsSpace`, which `strings.TrimSpace` uses) and sits between two
spaces; and it returns `"a　　b"` unchanged, a run of two ideographic
spaces, when the case table leaves `a`, `b` and U+3000 as they are.  What
holds for every text (for a case table that lowers ASCII as `strings.ToLower`
does, maps scalar values to scalar values and leaves a lowered rune as it
is): the result has no byte `A`..`Z`, `strings.TrimSpace` removes nothing
from it, and `\s+` matches nothing in it but single spaces.  The witness of
the claim holds: `" Hello  World "` becomes `"hello world"`. -/
theorem normalizeText_keeps_inner_white_space (unicodeToLower : Nat → Nat) :
    normalizeText unicodeToLower verticalTabText = verticalTabText ∧
      isSpace 0x0B = true ∧ isRegexSpace 0x0B = false ∧
      (unicodeToLower 0x61 = 0x61 → unicodeToLower 0x62 = 0x62 →
        unicodeToLower 0x3000 = 0x3000 →
        normalizeText unicodeToLower ideographicSpaceText = ideographicSpaceText) ∧
      isSpace 0x3000 = true ∧
      ((∀ c, c < 0x80 → unicodeToLower c = asciiLower c) →
        (∀ r, ValidRune r → unicodeToLower (unicodeToLower r) = unicodeToLower r) →
        (∀ r, ValidRune r → ValidRune (unicodeToLower r)) →
        ∀ text : GoString,
          (∀ b ∈ normalizeText unicodeToLower text, ¬ (0x41 ≤ b ∧ b ≤ 0x5A)) ∧
          trimSpace (normalizeText unicodeToLower text) = normalizeText unicodeToLower text ∧
          collapseSpaces (normalizeText unicodeToLower text) =
            normalizeText unicodeToLower text) ∧
      normalizeText unicodeToLower paddedHelloWorld = helloWorld := by
  refine ⟨?_, by decide, by decide, ?_, by decide, ?_, ?_⟩
  · rw [normalizeText_ascii unicodeToLower asciiLower (by decide)]
    decide
  · intro h1 h2 h3
    have hd : decodeRunes ideographicSpaceText = [0x61, 0x3000, 0x3000, 0x62] := by decide
    have e : toLower unicodeToLower ideographicSpaceText =
        encodeRunes [0x61, 0x3000, 0x3000, 0x62] := by
      unfold toLower
      rw [if_neg (by decide)]
      unfold stringsMap
      rw [hd]
      simp only [List.map_cons, List.map_nil, h1, h2, h3]
    show collapseSpaces (trimSpace (toLower unicodeToLower ideographicSpaceText)) = _
    rw [e]
    decide
  · intro hascii hidem hvalid text
    exact normalizeText_normal unicodeToLower hascii hidem hvalid text
  · rw [normalizeText_ascii unicodeToLower asciiLower (by decide)]
    decide

/-- C8: `normalizeText` is idempotent, for every string `x`, whenever the case
table of package `unicode` lowers the ASCII letters and nothing else of ASCII,
maps scalar values to scalar values, and leaves a lowered rune as it is. -/
theorem normalizeText_idempotent (unicodeToLower : Nat → Nat)
    (hascii : ∀ c, c < 0x80 → unicodeToLower c = asciiLower c)
    (hidem : ∀ r, ValidRune r → unicodeToLower (unicodeToLower r) = unicodeToLower r)
    (hvalid : ∀ r, ValidRune r → ValidRune (unicodeToLower r)) (x : GoString) :
    normalizeText unicodeToLower (normalizeText unicodeToLower x) =
      normalizeText unicodeToLower x :=
  normalizeText_idem unicodeToLower hascii hidem hvalid x

/-- C8, witness: with the table that lowers the ASCII letters only,
`" Hello  World "` is normalized to the same string once or twice. -/
theorem normalizeText_idempotent_witness :
    (∀ c, c < 0x80 → asciiLower c = asciiLower c) ∧
      (∀ r, ValidRune r → asciiLower (asciiLower r) = asciiLower r) ∧
      (∀ r, ValidRune r → ValidRune (asciiLower r)) ∧
      normalizeText asciiLower (normalizeText asciiLower paddedHelloWorld) =
        normalizeText asciiLower paddedHelloWorld :=
  have h1 : ∀ c, c < 0x80 → asciiLower c = asciiLower c := fun _ _ => rfl
  have h2 : ∀ r, ValidRune r → asciiLower (asciiLower r) = asciiLower r := by
    intro r _
    unfold asciiLower
    split_ifs <;> omega
  have h3 : ∀ r, ValidRune r → ValidRune (asciiLower r) := by
    intro r hr
    unfold ValidRune asciiLower at *
    split_ifs <;> omega
  ⟨h1, h2, h3, normalizeText_idempotent asciiLower h1 h2 h3 paddedHelloWorld⟩

/-- C9: `levenshteinDistance` satisfies the triangle inequality, for any three
strings `a`, `b` and `c`. -/
theorem levenshteinDistance_triangle (a b c : GoString) :
    levenshteinDistance a c ≤ levenshteinDistance a b + levenshteinDistance b c :=
  levenshteinDistance_le_editPath
    (editPath_trans (levenshteinDistance_editPath a b) (levenshteinDistance_editPath b c))

/-- C10: `levenshteinDistance` is symmetric, for any two strings `a` and `b`. -/
theorem levenshteinDistance_symm (a b : GoString) :
    levenshteinDistance a b = levenshteinDistance b a :=
  Nat.le_antisymm
    (levenshteinDistance_le_editPath (editPath_symm (levenshteinDistance_editPath b a)))
    (levenshteinDistance_le_editPath (editPath_symm (levenshteinDistance_editPath a b)))

end Scoring
